import Mathlib

/-! Derrity/cpp-web-crawler: a shallow embedding of `src/crawler.cpp`.

A `std::string` is modelled as the list of its characters, an
`std::unordered_set<std::string>` as a list used through membership test and
insertion only, a `std::deque` as a list (front = head, `push_back` = append).
The HTTP transport, the clock and the file system are outside the program; the
result of each transfer is an input of the step that performs it.
-/

namespace Crawler

/-- A `std::string`. -/
abbrev Str := List Char

/-! ## Small utilities (crawler.cpp 51-64) -/

/-- `Crawler::to_lower`: `::tolower` on every character. -/
def to_lower (s : Str) : Str := s.map Char.toLower

/-- `Crawler::starts_with`: `s.rfind(pre, 0) == 0`. -/
def starts_with (s pre : Str) : Bool := pre.isPrefixOf s

/-- `Crawler::ends_with`. -/
def ends_with (s suf : Str) : Bool :=
  if s.length < suf.length then false
  else decide (s.drop (s.length - suf.length) = suf)

/-- `std::string::find(char)`: index of the first occurrence, `none` for `npos`. -/
def find_char (c : Char) : Str → Option Nat
  | [] => none
  | x :: xs => if x = c then some 0 else (find_char c xs).map (· + 1)

/-- `std::string::find(const char*)`: index of the first occurrence of `pat`. -/
def find_str (pat : Str) : Str → Option Nat
  | [] => if pat.isPrefixOf [] then some 0 else none
  | x :: xs =>
    if pat.isPrefixOf (x :: xs) then some 0 else (find_str pat xs).map (· + 1)

/-- `std::string::rfind(char)`: index of the last occurrence. -/
def rfind_char (c : Char) : Str → Option Nat
  | [] => none
  | x :: xs =>
    match rfind_char c xs with
    | some i => some (i + 1)
    | none => if x = c then some 0 else none

/-! ## URL canonicalisation (crawler.cpp 80-108) -/

/-- `Crawler::is_absolute_url`: the string contains "://". -/
def is_absolute_url (url : Str) : Bool := (find_str "://".toList url).isSome

/-- `Crawler::dirname_path`. -/
def dirname_path (path : Str) : Str :=
  match rfind_char '/' path with
  | none => "/".toList
  | some pos => if pos = 0 then "/".toList else path.take pos

/-- Lines 104-105 of `normalize_url`: the text before the first hash sign, the
whole string when there is none. -/
def drop_fragment (url : Str) : Str :=
  match find_char '#' url with
  | none => url
  | some hash => url.take hash

/-- `Crawler::normalize_url`: drop the fragment, then drop one trailing slash
of a string longer than one character. -/
def normalize_url (url : Str) : Str :=
  let u := drop_fragment url
  if u.length > 1 && ends_with u "/".toList then u.dropLast else u

/-! ## Robots rules (crawler.cpp 167-177) -/

/-- One of the two loops of `robots_allowed`: the running maximum of the sizes
of the rules `path` starts with. -/
def robots_len (path : Str) (rules : List Str) : Nat :=
  rules.foldl (fun len d => if starts_with path d && d.length > len then d.length else len) 0

/-- The specification's wording of a match length: the greatest length of a
rule that is a string prefix of `path`, and 0 when no rule is one. -/
def spec_match_len (rules : List Str) (path : Str) : Nat :=
  ((rules.filter (fun r => r.isPrefixOf path)).map List.length).foldr max 0

/-! ## `std::regex` (ECMAScript grammar), as far as the three patterns of
crawler.cpp need it

A backtracking matcher in continuation-passing style. Alternatives are tried
left to right, a greedy star tries one more iteration first, a lazy star tries
the continuation first; the first success is the match, as in the ECMAScript
semantics. -/

/-- A regular expression. -/
inductive Re where
  | cls (p : Char → Bool)
  | eps
  | seq (a b : Re)
  | alt (a b : Re)
  | star (a : Re)
  | lazyStar (a : Re)
  | grp (i : Nat) (a : Re)
  | wordb

/-- The state of a match attempt: the offset reached, the input left, the
character before the offset and the sub-matches recorded so far (latest
first). -/
structure MState where
  pos : Nat
  rest : Str
  prev : Option Char
  caps : List (Nat × Str)

/-- A `std::smatch`: the participating capture groups with their text. -/
abbrev Smatch := List (Nat × Str)

/-- `m[i].matched`. -/
def sm_matched (m : Smatch) (i : Nat) : Bool := (m.lookup i).isSome

/-- `m[i].str()`: the empty string for a group that did not participate. -/
def sm_str (m : Smatch) (i : Nat) : Str := (m.lookup i).getD []

/-- A word character for `\b`. -/
def is_word (c : Option Char) : Bool :=
  match c with
  | none => false
  | some c => c.isAlphanum || c = '_'

/-- Number of nodes of an expression. -/
def Re.size : Re → Nat
  | .cls _ => 1
  | .eps => 1
  | .seq a b => a.size + b.size + 1
  | .alt a b => a.size + b.size + 1
  | .star a => a.size + 1
  | .lazyStar a => a.size + 1
  | .grp _ a => a.size + 1
  | .wordb => 1

/-- Match `re` at state `s`, then continue with `k`. The first argument bounds
the nesting of calls; `Re.fuel` is enough for it. -/
def Re.run (input : Str) : Nat → Re → MState → (MState → Option MState) → Option MState
  | 0, _, _, _ => none
  | _ + 1, .cls p, s, k =>
    match s.rest with
    | [] => none
    | c :: r => if p c then k ⟨s.pos + 1, r, some c, s.caps⟩ else none
  | _ + 1, .eps, s, k => k s
  | f + 1, .seq a b, s, k => Re.run input f a s (fun s2 => Re.run input f b s2 k)
  | f + 1, .alt a b, s, k =>
    match Re.run input f a s k with
    | some r => some r
    | none => Re.run input f b s k
  | f + 1, .star a, s, k =>
    match Re.run input f a s
        (fun s2 => if s.pos < s2.pos then Re.run input f (.star a) s2 k else none) with
    | some r => some r
    | none => k s
  | f + 1, .lazyStar a, s, k =>
    match k s with
    | some r => some r
    | none =>
      Re.run input f a s
        (fun s2 => if s.pos < s2.pos then Re.run input f (.lazyStar a) s2 k else none)
  | f + 1, .grp i a, s, k =>
    Re.run input f a s (fun s2 =>
      k ⟨s2.pos, s2.rest, s2.prev, (i, (input.drop s.pos).take (s2.pos - s.pos)) :: s2.caps⟩)
  | _ + 1, .wordb, s, k =>
    if is_word s.prev != is_word s.rest.head? then k s else none

/-- Call depth that suffices on `input`: one level per node and one per star
iteration. -/
def Re.fuel (re : Re) (input : Str) : Nat := input.length + re.size + 2

/-- `std::regex_match`: the expression must match the whole input. -/
def regex_match (re : Re) (input : Str) : Option Smatch :=
  (Re.run input (re.fuel input) re ⟨0, input, none, []⟩
    (fun s => if s.rest.isEmpty then some s else none)).map (·.caps)

/-- `std::regex_search` from offset `pos`: the leftmost start that matches. -/
def search_from (re : Re) (input : Str) : Nat → Option Char → Str → Option MState
  | pos, prev, rest =>
    match Re.run input (re.fuel input) re ⟨pos, rest, prev, []⟩ some with
    | some m => some m
    | none =>
      match rest with
      | [] => none
      | c :: r => search_from re input (pos + 1) (some c) r

/-- `std::sregex_iterator`: successive non-overlapping matches, each search
starting where the previous match ended. The patterns below match no empty
string, so the iterator's special step after an empty match is not needed. -/
def iter_from (re : Re) (input : Str) : Nat → Nat → Option Char → Str → List Smatch
  | 0, _, _, _ => []
  | n + 1, pos, prev, rest =>
    match search_from re input pos prev rest with
    | none => []
    | some m => m.caps :: (if pos < m.pos then iter_from re input n m.pos m.prev m.rest else [])

/-- All matches of `re` in `input`, in order. -/
def regex_iter (re : Re) (input : Str) : List Smatch :=
  iter_from re input (input.length + 1) 0 none input

/-- A literal character. -/
def lit (c : Char) : Re := .cls (fun x => x = c)

/-- A literal character under `std::regex::icase`. -/
def liti (c : Char) : Re := .cls (fun x => x.toLower = c.toLower)

/-- Concatenation of a list of expressions. -/
def seqs : List Re → Re
  | [] => .eps
  | [r] => r
  | r :: rs => .seq r (seqs rs)

/-- Alternation of a list of expressions, leftmost first. -/
def alts : List Re → Re
  | [] => .eps
  | [r] => r
  | r :: rs => .alt r (alts rs)

/-- A literal string under `icase`. -/
def word (s : Str) : Re := seqs (s.map liti)

/-- The quantifier `+`. -/
def plus (a : Re) : Re := .seq a (.star a)

/-- The class `\s`. -/
def ws : Re :=
  .cls (fun c => c = ' ' || c = '\t' || c = '\n' || c = Char.ofNat 11 || c = Char.ofNat 12
    || c = '\r')

/-- The double quote character. -/
def dquote : Char := Char.ofNat 34

/-- The single quote character. -/
def squote : Char := Char.ofNat 39

/-- The pattern of `parse_url` (line 67):
`^([a-zA-Z][a-zA-Z0-9+.-]*):\/\/([^\/]+)(\/.*)?$`, used with `regex_match`. -/
def url_re : Re :=
  seqs [.grp 1 (.seq (.cls Char.isAlpha)
          (.star (.cls (fun c => c.isAlphanum || c = '+' || c = '.' || c = '-')))),
        lit ':', lit '/', lit '/',
        .grp 2 (plus (.cls (fun c => c != '/'))),
        .alt (.grp 3 (.seq (lit '/') (.star (.cls (fun c => c != '\n' && c != '\r'))))) .eps]

/-- The pattern of `extract_links` (line 204), `icase`:
`<\s*a\b[^>]*?href\s*=\s*(?:"([^"]+)"|'([^']+)')`. -/
def a_href_re : Re :=
  seqs [lit '<', .star ws, liti 'a', .wordb, .lazyStar (.cls (fun c => c != '>')),
        word "href".toList, .star ws, lit '=', .star ws,
        .alt (seqs [lit dquote, .grp 1 (plus (.cls (fun c => c != dquote))), lit dquote])
             (seqs [lit squote, .grp 2 (plus (.cls (fun c => c != squote))), lit squote])]

/-- A character that has a meaning of its own in an ECMAScript pattern (the
syntax characters), or the zero character. -/
def is_pattern_operator (ch : Char) : Bool :=
  ch = '^' || ch = '$' || ch = Char.ofNat 92 || ch = '.' || ch = '*' || ch = '+' || ch = '?'
    || ch = '(' || ch = ')' || ch = '[' || ch = ']' || ch = Char.ofNat 123
    || ch = Char.ofNat 125 || ch = '|' || ch = Char.ofNat 0

/-- An extension that lines 327-333 turn into a literal of the pattern: the
only syntax character it holds is the dot, which line 331 escapes. -/
def plain_extension (e : Str) : Bool :=
  e.all (fun ch => ch = '.' || !is_pattern_operator ch)

/-- Line 328 of `crawl_worker`: `if (!e.empty() && e[0] != '.') e = "." + e;`. -/
def with_dot (e : Str) : Str :=
  match e with
  | [] => []
  | ch :: _ => if ch != '.' then '.' :: e else e

/-- The alternatives that lines 325-335 of `crawl_worker` write into the
pattern when every configured extension is plain: every extension, a dot put
in front of a non-empty one that lacks it, and `\.pdf` when the text built is
empty (no extension, or the empty one alone). `none`: some extension holds a
syntax character other than the dot; line 331 pastes it into the pattern as it
is, and what the pattern then means is decided by the library. -/
def ext_alternatives (targetExtensions_ : List Str) : Option (List Str) :=
  if targetExtensions_.all plain_extension then
    let es := targetExtensions_.map with_dot
    some (if es = [] ∨ es = [[]] then [".pdf".toList] else es)
  else none

/-- The pattern of lines 336-341, `icase`, for literal alternatives:
`(?:href|src)\s*=\s*(?:"([^"]+(EXTS))"|'([^']+(EXTS))')` with `EXTS`
replaced by the parenthesised alternatives. Groups are numbered by their
opening parenthesis: 1 and 4 are the double and the single quoted value. -/
def pdf_re_of (alternatives : List Str) : Re :=
  let exts := alts (alternatives.map word)
  seqs [.alt (word "href".toList) (word "src".toList), .star ws, lit '=', .star ws,
        .alt (seqs [lit dquote,
                    .grp 1 (.seq (plus (.cls (fun c => c != dquote))) (.grp 2 (.grp 3 exts))),
                    lit dquote])
             (seqs [lit squote,
                    .grp 4 (.seq (plus (.cls (fun c => c != squote))) (.grp 5 (.grp 6 exts))),
                    lit squote])]

/-! ## The crawler object -/

/-- `Crawler::UrlParts`. -/
structure UrlParts where
  scheme : Str
  host : Str
  path : Str
deriving DecidableEq, Repr

/-- `Crawler::DownloadTask`. -/
structure DownloadTask where
  url : Str
  referer : Str
  category : Str
deriving DecidableEq, Repr

/-- `Crawler::ManifestItem`, with the default member initialisers of
crawler.hpp 57-58. -/
structure ManifestItem where
  pdf_url : Str := []
  saved_path : Str := []
  referer : Str := []
  category : Str := []
  status : Int := 0
  content_length : Int := -1
deriving DecidableEq, Repr

/-- The members of `Crawler` that no worker writes: the configuration and the
robots rules, which `fetch_robots` fills before the workers start. The last
field is no member: it is an input from the library, the expression
`std::regex` compiles from the pattern text of lines 336-340 when a configured
extension holds a syntax character (see `ext_alternatives`). It is used in that
case only. That the library may reject such a text, in which case the
constructor of `std::regex` throws, is not modelled. -/
structure Config where
  baseUrl_ : Str
  baseHost_ : Str
  baseScheme_ : Str
  outDir_ : Str
  maxPages_ : Int
  targetExtensions_ : List Str
  robotsAllow_ : List Str
  robotsDisallow_ : List Str
  lib_pdf_re_ : Re

/-- The thread-local `pdf_re` of `crawl_worker` (lines 323-342): the pattern
with the literal alternatives when every configured extension is plain, and
what the library compiles otherwise. -/
def pdf_re (c : Config) : Re :=
  match ext_alternatives c.targetExtensions_ with
  | some alternatives => pdf_re_of alternatives
  | none => c.lib_pdf_re_

/-- The members of `Crawler` the workers write. The counters are `int`s that
the runs considered keep far from overflow; they are integers here. The last
three fields are history variables, not members: they record, in order, every
URL pushed onto `url_queue_`, every URL passed to `fetch_text` by
`crawl_worker`, and every task pushed onto `download_queue_`. No other field is
computed from them. -/
structure State where
  visitedPages_ : List Str
  downloadedPdfs_ : List Str
  enqueuedPages_ : List Str
  manifest_ : List ManifestItem
  url_queue_ : List Str
  pending_pages_ : Int
  pages_crawled_ : Int
  download_queue_ : List DownloadTask
  pending_downloads_ : Int
  pushed_ : List Str
  fetched_ : List Str
  tasks_ : List DownloadTask
deriving DecidableEq, Repr

/-- `Crawler::parse_url`. -/
def parse_url (url : Str) : Option UrlParts :=
  match regex_match url_re url with
  | none => none
  | some m =>
    let path := sm_str m 3
    some ⟨sm_str m 1, sm_str m 2, if path.isEmpty then "/".toList else path⟩

/-- `Crawler::join_url`. -/
def join_url (base : UrlParts) (link : Str) : Str :=
  match link with
  | [] => base.scheme ++ "://".toList ++ base.host ++ base.path
  | '/' :: '/' :: _ => base.scheme ++ ":".toList ++ link
  | '/' :: _ => base.scheme ++ "://".toList ++ base.host ++ link
  | _ =>
    let dir := dirname_path base.path
    let dir := if !ends_with dir "/".toList then dir ++ "/".toList else dir
    base.scheme ++ "://".toList ++ base.host ++ dir ++ link

/-- `Crawler::same_host`. -/
def same_host (c : Config) (url : Str) : Bool :=
  match parse_url url with
  | none => false
  | some p => decide (to_lower p.host = to_lower c.baseHost_)

/-- `Crawler::ends_with_any`. -/
def ends_with_any (s : Str) (sufs : List Str) : Bool :=
  sufs.any (fun suf => ends_with s (to_lower suf))

/-- `Crawler::is_pdf_url`. -/
def is_pdf_url (c : Config) (url : Str) : Bool :=
  ends_with_any (to_lower url) c.targetExtensions_

/-- `Crawler::sanitize_filename`. -/
def sanitize_filename (name : Str) : Str :=
  name.map (fun ch =>
    if ch = '/' || ch = Char.ofNat 92 || ch = ':' || ch = '*' || ch = '?' || ch = dquote
      || ch = '<' || ch = '>' || ch = '|' then '_' else ch)

/-- `Crawler::get_category_from_url`. -/
def get_category_from_url (url : Str) : Str :=
  match parse_url url with
  | none => "uncategorized".toList
  | some p =>
    let path := if p.path.length > 1 && p.path.head? = some '/' then p.path.drop 1 else p.path
    let seg := match find_char '/' path with
      | none => path
      | some slash => path.take slash
    if seg.isEmpty then "root".toList else sanitize_filename seg

/-- The link an iteration over matches works on (lines 206 and 348):
`(*it)[1].matched ? (*it)[1].str() : (*it)[2].str()`. -/
def match_link (m : Smatch) : Str :=
  if sm_matched m 1 then sm_str m 1 else sm_str m 2

/-- `Crawler::extract_links`. `parse_url(base_url).value()` throws when the
base does not parse; `crawl_worker` calls it with a URL that parsed. -/
def extract_links (c : Config) (html base_url : Str) : List Str :=
  match parse_url base_url with
  | none => []
  | some base =>
    (regex_iter a_href_re html).filterMap (fun m =>
      let link := match_link m
      if link.isEmpty then none
      else
        let link := if !is_absolute_url link then join_url base link else link
        let link := normalize_url link
        if !same_host c link then none else some link)

/-- The candidates the target loop of `crawl_worker` (lines 347-354) inserts
into `page_pdfs`, in the order of the matches. -/
def pdf_candidates (c : Config) (parts : UrlParts) (html : Str) : List Str :=
  (regex_iter (pdf_re c) html).filterMap (fun m =>
    let link := match_link m
    if link.isEmpty then none
    else
      let link := if !is_absolute_url link then join_url parts link else link
      let link := normalize_url link
      if !is_pdf_url c link then none else some link)

/-- `std::unordered_set::insert` on the list that stands for the set. -/
def set_insert (x : Str) (set : List Str) : List Str :=
  if x ∈ set then set else set ++ [x]

/-- The set `page_pdfs` of `crawl_worker` after the target loop. Its iteration
order, which the standard leaves open, is taken to be the order of insertion. -/
def page_pdfs (c : Config) (parts : UrlParts) (html : Str) : List Str :=
  (pdf_candidates c parts html).foldl (fun set link => set_insert link set) []

/-- `Crawler::robots_allowed`. -/
def robots_allowed (c : Config) (path : Str) : Bool :=
  let disLen := robots_len path c.robotsDisallow_
  let allowLen := robots_len path c.robotsAllow_
  decide (allowLen ≥ disLen)

/-! ## The transport -/

/-- What `fetch_text` hands back: the status code written through `status` and
the returned text, which is empty after a transport error. -/
structure FetchResult where
  status : Int
  body : Str
deriving DecidableEq, Repr

/-- The `cpr::Response` of a download as far as `download_to_file` reads it:
`content_length` is the value `std::stoll` gives for the content-length header,
`none` when the header is absent or `stoll` throws. -/
structure Response where
  error : Bool
  status_code : Int
  content_length : Option Int
  text : Str
deriving DecidableEq, Repr

/-- `Crawler::download_to_file`: the pair returned. Writing the body to the
file, done for status 200 and a non-empty body, is not part of the state. -/
def download_to_file (r : Response) : Option (Int × Int) :=
  if r.error then none
  else
    let status := r.status_code
    let content_len : Int := match r.content_length with
      | some n => n
      | none => -1
    some (status, content_len)

/-! ## Construction and `run()` -/

/-- The constructor (lines 32-48): it throws, here `none`, when the base URL
does not parse. The robots rules start empty. `lib_pdf_re` is the input of the
library that goes with the crawler (see `Config`). -/
def construct (baseUrl outputDir : Str) (maxPages : Int) (targetExtensions : List Str)
    (lib_pdf_re : Re) : Option Config :=
  match parse_url baseUrl with
  | none => none
  | some parts =>
    some { baseUrl_ := baseUrl, baseHost_ := parts.host, baseScheme_ := parts.scheme,
           outDir_ := outputDir, maxPages_ := maxPages, targetExtensions_ := targetExtensions,
           robotsAllow_ := [], robotsDisallow_ := [], lib_pdf_re_ := lib_pdf_re }

/-- The state in which `run()` starts the workers (lines 468-473): everything
empty but the page queue, which holds the normalized base URL, and
`pending_pages_ = 1`. -/
def seed (c : Config) : State :=
  { visitedPages_ := [], downloadedPdfs_ := [], enqueuedPages_ := [], manifest_ := [],
    url_queue_ := [normalize_url c.baseUrl_], pending_pages_ := 1, pages_crawled_ := 0,
    download_queue_ := [], pending_downloads_ := 0,
    pushed_ := [normalize_url c.baseUrl_], fetched_ := [], tasks_ := [] }

/-! ## `crawl_worker` (lines 276-418) -/

/-- One round of the download loop (lines 359-376). -/
def enqueue_download (url category : Str) (s : State) (pdf : Str) : State :=
  if pdf ∈ s.downloadedPdfs_ then s
  else
    { s with downloadedPdfs_ := pdf :: s.downloadedPdfs_,
             download_queue_ := s.download_queue_ ++ [⟨pdf, url, category⟩],
             pending_downloads_ := s.pending_downloads_ + 1,
             tasks_ := s.tasks_ ++ [⟨pdf, url, category⟩] }

/-- The download loop over `page_pdfs` (lines 359-376). -/
def enqueue_downloads (url category : Str) (pdfs : List Str) (s : State) : State :=
  pdfs.foldl (enqueue_download url category) s

/-- One round of the link loop (lines 381-396). -/
def enqueue_link (s : State) (l : Str) : State :=
  if l ∈ s.enqueuedPages_ then s
  else
    { s with enqueuedPages_ := l :: s.enqueuedPages_,
             url_queue_ := s.url_queue_ ++ [l],
             pending_pages_ := s.pending_pages_ + 1,
             pushed_ := s.pushed_ ++ [l] }

/-- The link loop (lines 381-396). -/
def enqueue_links (links : List Str) (s : State) : State :=
  links.foldl enqueue_link s

/-- The block of lines 401-407, which writes 0 to `pending_pages_` when it
already is 0. -/
def close_if_limit (c : Config) (s : State) : State :=
  if c.maxPages_ > 0 && s.pages_crawled_ ≥ c.maxPages_ then
    if s.pending_pages_ = 0 && s.url_queue_.isEmpty then { s with pending_pages_ := 0 } else s
  else s

/-- Lines 316-414 of `crawl_worker`: what an iteration does once the page
`url` (with `parts = parse_url(url)`) was fetched with status 200 and the
non-empty text `html`. -/
def process_page (c : Config) (url : Str) (parts : UrlParts) (html : Str) (s : State) : State :=
  let s := { s with pages_crawled_ := s.pages_crawled_ + 1 }
  let crawled_now := s.pages_crawled_
  let links := extract_links c html url
  let pdfs := page_pdfs c parts html
  let category := get_category_from_url url
  let s := enqueue_downloads url category pdfs s
  let s := if c.maxPages_ = 0 || crawled_now < c.maxPages_ then enqueue_links links s else s
  let s := close_if_limit c s
  { s with pending_pages_ := s.pending_pages_ - 1 }

/-- One iteration of the loop of `crawl_worker` that dequeues a URL, up to the
point where control is back at the head of the loop; `resp` is what
`fetch_text` returns should the iteration call it. `none`: the queue is empty,
so the thread leaves the loop (`crawl_exit`) or stays in `wait`. -/
def crawl_iter (c : Config) (resp : FetchResult) (s : State) : Option State :=
  match s.url_queue_ with
  | [] => none
  | front :: queue =>
    let s := { s with url_queue_ := queue }
    let url := normalize_url front
    match parse_url url with
    | none => some s
    | some parts =>
      if url ∈ s.visitedPages_ then some s
      else
        let s := { s with visitedPages_ := url :: s.visitedPages_ }
        if !robots_allowed c parts.path then some s
        else
          let s := { s with fetched_ := s.fetched_ ++ [url] }
          if resp.status != 200 || resp.body.isEmpty then
            some { s with pending_pages_ := s.pending_pages_ - 1 }
          else
            some (process_page c url parts resp.body s)

/-- The condition under which `crawl_worker` leaves its loop (line 282). -/
def crawl_exit (s : State) : Bool :=
  s.url_queue_.isEmpty && s.pending_pages_ == 0

/-- A worker running alone: one iteration per element of `resps`, until the
queue is empty. -/
def crawl_run (c : Config) : List FetchResult → State → State
  | [], s => s
  | r :: rs, s =>
    match crawl_iter c r s with
    | none => s
    | some s2 => crawl_run c rs s2

/-! ## `download_worker` (lines 420-461) and the manifest -/

/-- The operator `/` of `std::filesystem::path` on generic POSIX paths. -/
def path_join (a b : Str) : Str :=
  if b.head? = some '/' then b
  else if a.isEmpty || ends_with a "/".toList then a ++ b
  else a ++ "/".toList ++ b

/-- The condition under which `download_worker` leaves its loop (line 426). -/
def download_exit (s : State) : Bool :=
  s.download_queue_.isEmpty && s.pending_downloads_ == 0 && s.pending_pages_ == 0

/-- The `ManifestItem` an iteration of `download_worker` builds for `task`
(lines 433-450) from the result of `download_to_file`. -/
def manifest_item (c : Config) (task : DownloadTask) (res : Option (Int × Int)) : ManifestItem :=
  let catDir := path_join c.outDir_ task.category
  let filename := match rfind_char '/' task.url with
    | none => task.url
    | some slash => task.url.drop (slash + 1)
  let filename := sanitize_filename filename
  let savePath := path_join catDir filename
  let item : ManifestItem :=
    { pdf_url := task.url, saved_path := savePath, referer := task.referer,
      category := task.category }
  match res with
  | some p => { item with status := p.1, content_length := p.2 }
  | none => item

/-- What the environment hands an iteration of `download_worker`: whether
`fs::create_directories`, called by `ensure_dir` (lines 433-434), returns, the
category directory then being there (it throws when it cannot create it), and
the response of the transfer. -/
structure DownloadEnv where
  dir_ok : Bool
  response : Response
deriving DecidableEq, Repr

/-- One iteration of the loop of `download_worker` that dequeues a task.
`none`: the queue is empty. `some (.error s)`: `ensure_dir` threw in state `s`;
no handler catches the exception, which leaves the thread function and ends
the program. `some (.ok s)`: control is back at the head of the loop. -/
def download_iter (c : Config) (env : DownloadEnv) (s : State) : Option (Except State State) :=
  match s.download_queue_ with
  | [] => none
  | task :: queue =>
    let s := { s with download_queue_ := queue, pending_downloads_ := s.pending_downloads_ - 1 }
    if !env.dir_ok then some (.error s)
    else
      let res := download_to_file env.response
      let item := manifest_item c task res
      some (.ok { s with manifest_ := s.manifest_ ++ [item] })

/-- A value of the JSON document `write_manifest` builds. -/
inductive JVal where
  | str (s : Str)
  | num (n : Int)
deriving DecidableEq, Repr

/-- `Crawler::write_manifest`: the array that is dumped, one object per item
of `manifest_`. -/
def write_manifest (s : State) : List (List (Str × JVal)) :=
  s.manifest_.map (fun m =>
    [("pdf_url".toList, .str m.pdf_url), ("saved_path".toList, .str m.saved_path),
     ("referer".toList, .str m.referer), ("category".toList, .str m.category),
     ("status".toList, .num m.status), ("content_length".toList, .num m.content_length)])

/-! ## `fetch_robots` (lines 132-165) -/

/-- The loop `while (std::getline(iss, line))`: the lines of `body`, split at
the newline character; a read that meets the end of the text without having
taken a character yields no line. `acc` is the line being read. -/
def getlines_from (acc : Str) : Str → List Str
  | [] => if acc.isEmpty then [] else [acc]
  | ch :: rest => if ch = '\n' then acc :: getlines_from [] rest else getlines_from (acc ++ [ch]) rest

/-- The lines `std::getline` reads from `body`. -/
def getlines (body : Str) : List Str := getlines_from [] body

/-- A character of the set " \t\r\n" of the lambda `trim`. -/
def is_blank (ch : Char) : Bool := ch = ' ' || ch = '\t' || ch = '\r' || ch = '\n'

/-- `std::string::find_first_not_of(" \t\r\n")`. -/
def find_first_not_blank : Str → Option Nat
  | [] => none
  | x :: xs => if is_blank x then (find_first_not_blank xs).map (· + 1) else some 0

/-- `std::string::find_last_not_of(" \t\r\n")`. -/
def find_last_not_blank : Str → Option Nat
  | [] => none
  | x :: xs =>
    match find_last_not_blank xs with
    | some i => some (i + 1)
    | none => if is_blank x then none else some 0

/-- The lambda `trim` of `fetch_robots` (lines 141-146). -/
def trim (s : Str) : Str :=
  match find_first_not_blank s, find_last_not_blank s with
  | some a, some b => (s.drop a).take (b - a + 1)
  | _, _ => []

/-- The variables the parse loop of `fetch_robots` writes. -/
structure RobotsAcc where
  in_all : Bool
  robotsAllow_ : List Str
  robotsDisallow_ : List Str
deriving DecidableEq, Repr

/-- The body of the parse loop (lines 148-163) for one line read. -/
def robots_line (acc : RobotsAcc) (line : Str) : RobotsAcc :=
  let line := match find_char '#' line with
    | some hash => line.take hash
    | none => line
  let line := trim line
  if line.isEmpty then acc
  else
    let lower := to_lower line
    if starts_with lower "user-agent:".toList then
      let v := trim (line.drop 11)
      { acc with in_all := decide (to_lower v = "*".toList) }
    else if acc.in_all
        && (starts_with lower "allow:".toList || starts_with lower "disallow:".toList) then
      let allow := starts_with lower "allow:".toList
      let v := trim (line.drop (if allow then 6 else 9))
      if allow then { acc with robotsAllow_ := acc.robotsAllow_ ++ [v] }
      else { acc with robotsDisallow_ := acc.robotsDisallow_ ++ [v] }
    else acc

/-- `Crawler::fetch_robots`; `resp` is what `fetch_text` returns for the
robots URL. The rule vectors of the result are those of the crawler after the
call. -/
def fetch_robots (c : Config) (resp : FetchResult) : Config :=
  if resp.status != 200 || resp.body.isEmpty then c
  else
    let acc := (getlines resp.body).foldl robots_line ⟨false, c.robotsAllow_, c.robotsDisallow_⟩
    { c with robotsAllow_ := acc.robotsAllow_, robotsDisallow_ := acc.robotsDisallow_ }

/-! ### The rule lists in the words of the specification -/

/-- A line with its comment removed (the text from the first hash sign on)
and the surrounding white space trimmed. -/
def spec_clean (line : Str) : Str := trim (line.takeWhile (fun ch => ch != '#'))

/-- The cleaned line starts, case-insensitively, with the key (given in lower
case, colon included). -/
def spec_has_key (key line : Str) : Bool := key.isPrefixOf (line.map Char.toLower)

/-- The white-space-trimmed value that follows the key on a cleaned line. -/
def spec_value (key line : Str) : Str := trim (line.drop key.length)

/-- The value of the most recent "user-agent:" line among the cleaned lines
`before`, if there is one. -/
def spec_agent (before : List Str) : Option Str :=
  ((before.filter (spec_has_key "user-agent:".toList)).getLast?).map
    (spec_value "user-agent:".toList)

/-- Every line of a list paired with the lines that precede it; `before` are
the lines that precede the whole list. -/
def with_preceding (before : List Str) : List Str → List (List Str × Str)
  | [] => []
  | l :: ls => (before, l) :: with_preceding (before ++ [l]) ls

/-- The rule a cleaned line `p.2` with the preceding lines `p.1` contributes to
the list of a key: its value, when it starts with the key and the most recent
preceding "user-agent:" line has the value "*". -/
def spec_rule_of (key : Str) (p : List Str × Str) : Option Str :=
  if spec_has_key key p.2 && decide (spec_agent p.1 = some "*".toList)
  then some (spec_value key p.2) else none

/-- The specification's rule list for a key ("allow:" or "disallow:"): in
order, the trimmed values of the cleaned lines of `body` that start with the
key and whose most recent preceding "user-agent:" line has the value "*". -/
def spec_rules (key : Str) (body : Str) : List Str :=
  (with_preceding [] ((getlines body).map spec_clean)).filterMap (spec_rule_of key)

/-! ## Predicates on states and the inputs of the concrete runs -/

/-- The tasks created so far have pairwise distinct URLs, all of them in
`downloadedPdfs_`. -/
def TasksInv (s : State) : Prop :=
  (s.tasks_.map DownloadTask.url).Nodup ∧ ∀ t ∈ s.tasks_, t.url ∈ s.downloadedPdfs_

/-- `s2` extends `s`: `downloadedPdfs_` lost nothing, and the same new tasks
were appended to the download queue and to its history; their URLs are pairwise
distinct, were absent from `downloadedPdfs_` and are now in it. -/
def TasksExtend (s s2 : State) : Prop :=
  s.downloadedPdfs_ ⊆ s2.downloadedPdfs_
    ∧ ∃ new : List DownloadTask, s2.download_queue_ = s.download_queue_ ++ new
        ∧ s2.tasks_ = s.tasks_ ++ new
        ∧ (new.map DownloadTask.url).Nodup
        ∧ ∀ t ∈ new, t.url ∉ s.downloadedPdfs_ ∧ t.url ∈ s2.downloadedPdfs_

/-- The crawler of https://a.com with the extension .pdf, no page limit and no
robots rule. The extension is plain, so the input of the library is not used;
it is set to the empty expression. -/
def site_a : Config :=
  ⟨"https://a.com".toList, "a.com".toList, "https".toList, "out".toList, 0,
    [".pdf".toList], [], [], .eps⟩

/-- The same crawler after `fetch_robots` read "User-agent: *" with
"Disallow: /". -/
def site_a_closed : Config := { site_a with robotsDisallow_ := ["/".toList] }

/-- The crawler constructed for the base URL http://#/x, which `parse_url`
accepts (host "#"). -/
def site_hash : Config :=
  ⟨"http://#/x".toList, "#".toList, "http".toList, "out".toList, 0, [".pdf".toList], [], [],
    .eps⟩

/-- A page of https://a.com whose only anchor leads to the home page. -/
def home_link_page : FetchResult := ⟨200, "<a href=\"/\">Home</a>".toList⟩

/-- A page of https://a.com with one target in a double-quoted attribute. -/
def double_quoted_page : Str := "<a href=\"/q.pdf\">q</a>".toList

/-- The same page with the attribute value in single quotes. -/
def single_quoted_page : Str :=
  "<a href=".toList ++ [squote] ++ "/q.pdf".toList ++ [squote] ++ ">q</a>".toList

/-- The same target in a single-quoted `src` attribute. -/
def single_quoted_src_page : Str :=
  "<img src=".toList ++ [squote] ++ "/q.pdf".toList ++ [squote] ++ ">".toList

/-- The crawler of https://a.com with `maxPages = 1`. -/
def site_a_cap1 : Config := { site_a with maxPages_ := 1 }

/-- A page of https://a.com with two links of the site, one of them twice. -/
def two_links_page : FetchResult :=
  ⟨200, "<a href=\"/b\">b</a> <a href=\"/c\">c</a> <a href=\"/b\">b</a>".toList⟩

/-- The robots.txt body of the example: a block for every agent, then one for
"bot". -/
def robots_body : Str :=
  "User-agent: *\nDisallow: /a\nUser-agent: bot\nDisallow: /".toList

theorem ends_with_iff_suffix (s suf : Str) : ends_with s suf = true ↔ suf <:+ s := by
  unfold ends_with
  by_cases h : s.length < suf.length
  · simp only [h, if_true]
    constructor
    · intro h2; cases h2
    · intro h2; have := h2.length_le; omega
  · simp only [h, if_false, decide_eq_true_eq]
    rw [List.suffix_iff_eq_drop]
    exact eq_comm

theorem ends_with_append (s suf : Str) : ends_with (s ++ suf) suf = true :=
  (ends_with_iff_suffix _ _).2 (List.suffix_append s suf)

theorem ends_with_singleton_false (s : Str) (ch : Char) :
    ends_with s [ch] = false ↔ ∀ v, s ≠ v ++ [ch] := by
  rw [← Bool.not_eq_true, ends_with_iff_suffix]
  constructor
  · intro h v hv
    exact h ⟨v, hv.symm⟩
  · rintro h ⟨v, hv⟩
    exact h v hv.symm

theorem find_char_none (ch : Char) (s : Str) (h : ch ∉ s) : find_char ch s = none := by
  induction s with
  | nil => rfl
  | cons x xs ih =>
    have hx : x ≠ ch := fun e => h (by simp [e])
    have hxs : ch ∉ xs := fun e => h (by simp [e])
    simp [find_char, hx, ih hxs]

theorem find_char_append (ch : Char) (s f : Str) (h : ch ∉ s) :
    find_char ch (s ++ ch :: f) = some s.length := by
  induction s with
  | nil => simp [find_char]
  | cons x xs ih =>
    have hx : x ≠ ch := fun e => h (by simp [e])
    have hxs : ch ∉ xs := fun e => h (by simp [e])
    simp [find_char, hx, ih hxs]

theorem find_char_some (ch : Char) (s : Str) (n : Nat) (h : find_char ch s = some n) :
    ch ∉ s.take n := by
  induction s generalizing n with
  | nil => simp [find_char] at h
  | cons x xs ih =>
    by_cases hx : x = ch
    · simp [find_char, hx] at h
      subst h
      simp
    · simp only [find_char, hx, if_false, Option.map_eq_some'] at h
      obtain ⟨m, hm, rfl⟩ := h
      simp only [List.take_succ_cons, List.mem_cons, not_or]
      exact ⟨fun e => hx e.symm, ih m hm⟩

theorem drop_fragment_no_hash (url : Str) : '#' ∉ drop_fragment url := by
  unfold drop_fragment
  cases h : find_char '#' url with
  | none =>
    intro hm
    have : ∀ s : Str, '#' ∈ s → find_char '#' s ≠ none := by
      intro s
      induction s with
      | nil => simp
      | cons x xs ih =>
        intro hmem
        by_cases hx : x = '#'
        · simp [find_char, hx]
        · have : '#' ∈ xs := by
            rcases List.mem_cons.1 hmem with e | e
            · exact absurd e.symm hx
            · exact e
          simp [find_char, hx, ih this]
    exact this url hm h
  | some n => exact find_char_some _ _ _ h

theorem drop_fragment_of_no_hash (s : Str) (h : '#' ∉ s) : drop_fragment s = s := by
  simp [drop_fragment, find_char_none _ _ h]

theorem normalize_url_def (url : Str) :
    normalize_url url =
      if 1 < (drop_fragment url).length ∧ ends_with (drop_fragment url) ['/'] = true
      then (drop_fragment url).dropLast else drop_fragment url := by
  show (if ((drop_fragment url).length > 1 && ends_with (drop_fragment url) ['/']) = true
      then (drop_fragment url).dropLast else drop_fragment url) = _
  simp only [gt_iff_lt, Bool.and_eq_true, decide_eq_true_eq]

/-- A string without hash sign that does not end in a slash, or is the single
slash, is a fixed point of `normalize_url`. -/
theorem normalize_url_fixed (r : Str) (h : '#' ∉ r)
    (hs : ends_with r "/".toList = false ∨ r = "/".toList) : normalize_url r = r := by
  rw [normalize_url_def, drop_fragment_of_no_hash r h]
  rcases hs with hs | hs
  · have hs2 : ends_with r ['/'] = false := hs
    simp [hs2]
  · subst hs
    rfl

/-- C7. Normalization equivalence: for a non-empty string `s` without hash sign
that does not end in a slash, and any string `f`, `normalize_url` maps `s`,
`s` followed by one slash and `s` followed by a hash sign and `f` all to `s`. -/
theorem normalize_url_equivalence (s f : Str) (hne : s ≠ []) (hh : '#' ∉ s)
    (hs : ends_with s "/".toList = false) :
    normalize_url s = s ∧ normalize_url (s ++ "/".toList) = s
      ∧ normalize_url (s ++ "#".toList ++ f) = s := by
  have h1 : normalize_url s = s := normalize_url_fixed s hh (Or.inl hs)
  refine ⟨h1, ?_, ?_⟩
  · have hh2 : '#' ∉ s ++ ['/'] := by
      simp only [List.mem_append, List.mem_singleton, not_or]
      exact ⟨hh, by decide⟩
    have hlen : 1 < (s ++ ['/']).length := by
      have : 0 < s.length := List.length_pos.2 hne
      simp only [List.length_append, List.length_singleton]
      omega
    have he : ends_with (s ++ ['/']) ['/'] = true := ends_with_append s ['/']
    show normalize_url (s ++ ['/']) = s
    rw [normalize_url_def, drop_fragment_of_no_hash _ hh2, if_pos ⟨hlen, he⟩]
    simp
  · have hd : drop_fragment (s ++ "#".toList ++ f) = s := by
      show drop_fragment (s ++ ['#'] ++ f) = s
      unfold drop_fragment
      rw [List.append_assoc, List.singleton_append, find_char_append '#' s f hh]
      simp
    have hs2 : ends_with s ['/'] = false := hs
    rw [normalize_url_def, hd]
    simp [hs2]

/-- The witness of C7: `s = "https://a.com/x"` with the fragment `frag`. -/
theorem normalize_url_equivalence_witness :
    normalize_url "https://a.com/x".toList = "https://a.com/x".toList
      ∧ normalize_url "https://a.com/x/".toList = "https://a.com/x".toList
      ∧ normalize_url "https://a.com/x#frag".toList = "https://a.com/x".toList :=
  normalize_url_equivalence "https://a.com/x".toList "frag".toList (by decide) (by decide)
    (by decide)

theorem ends_with_false_iff (s suf : Str) : ends_with s suf = false ↔ ¬ suf <:+ s := by
  rw [← Bool.not_eq_true, ends_with_iff_suffix]

/-- The shape of `normalize_url` on a string `u` without fragment: the result
is free of a trailing slash (or is the single slash) exactly when `u` does not
end in two slashes (or is the two slashes). -/
theorem strip_slash_canonical_iff (u : Str) :
    (ends_with (if 1 < u.length ∧ ends_with u ['/'] = true then u.dropLast else u) ['/'] = false
        ∨ (if 1 < u.length ∧ ends_with u ['/'] = true then u.dropLast else u) = ['/'])
      ↔ (ends_with u ['/', '/'] = false ∨ u = ['/', '/']) := by
  by_cases hc : 1 < u.length ∧ ends_with u ['/'] = true
  · rw [if_pos hc]
    obtain ⟨v, rfl⟩ := (ends_with_iff_suffix _ _).1 hc.2
    rw [List.dropLast_concat]
    simp only [ends_with_false_iff]
    constructor
    · rintro (h | h)
      · left
        rintro ⟨w, hw⟩
        apply h
        refine ⟨w, ?_⟩
        have : (w ++ ['/']) ++ ['/'] = v ++ ['/'] := by simpa using hw
        exact List.append_cancel_right this
      · right
        rw [h]
        rfl
    · rintro (h | h)
      · left
        rintro ⟨w, hw⟩
        apply h
        refine ⟨w, ?_⟩
        rw [← hw]
        simp
      · right
        have : v ++ ['/'] = ['/'] ++ ['/'] := h
        exact List.append_cancel_right this
  · rw [if_neg hc]
    rw [not_and_or] at hc
    rcases hc with hc | hc
    · have hlen : u.length ≤ 1 := by omega
      constructor
      · intro _
        left
        rw [ends_with_false_iff]
        intro hs
        have := hs.length_le
        simp at this
        omega
      · intro _
        match u, hlen with
        | [], _ => left; rfl
        | [ch], _ =>
          by_cases hch : ch = '/'
          · right; rw [hch]
          · left
            rw [ends_with_false_iff]
            rintro ⟨w, hw⟩
            have := congrArg List.getLast? hw
            simp at this
            exact hch this.symm
    · have hf : ends_with u ['/'] = false := by simpa using hc
      constructor
      · intro _
        left
        rw [ends_with_false_iff] at hf ⊢
        rintro ⟨w, hw⟩
        apply hf
        refine ⟨w ++ ['/'], ?_⟩
        rw [← hw]
        simp
      · intro _
        exact Or.inl hf

/-- C8, as amended. For every input the result of `normalize_url` holds no hash
sign. It is free of a trailing slash (or is the one-character string "/")
exactly when the text before the first hash sign of the input does not end in
two slashes (or is "//"): one slash only is removed. For those inputs
normalizing the result again changes nothing. -/
theorem normalize_url_canonical (url : Str) :
    '#' ∉ normalize_url url
      ∧ ((ends_with (normalize_url url) "/".toList = false ∨ normalize_url url = "/".toList)
          ↔ (ends_with (drop_fragment url) "//".toList = false
              ∨ drop_fragment url = "//".toList))
      ∧ ((ends_with (drop_fragment url) "//".toList = false ∨ drop_fragment url = "//".toList)
          → normalize_url (normalize_url url) = normalize_url url) := by
  have hnh : '#' ∉ normalize_url url := by
    rw [normalize_url_def]
    split
    · exact fun hm => drop_fragment_no_hash url (List.dropLast_subset _ hm)
    · exact drop_fragment_no_hash url
  have hiff : (ends_with (normalize_url url) "/".toList = false
        ∨ normalize_url url = "/".toList)
      ↔ (ends_with (drop_fragment url) "//".toList = false
          ∨ drop_fragment url = "//".toList) := by
    rw [normalize_url_def]
    exact strip_slash_canonical_iff (drop_fragment url)
  exact ⟨hnh, hiff, fun h => normalize_url_fixed _ hnh (hiff.2 h)⟩

/-- C8 as stated fails: the result for "https://a.com/x//" ends in a slash, is
not "/", and normalizing it again changes it. -/
theorem normalize_url_not_canonical :
    ends_with (normalize_url "https://a.com/x//".toList) "/".toList = true
      ∧ normalize_url "https://a.com/x//".toList ≠ "/".toList
      ∧ normalize_url (normalize_url "https://a.com/x//".toList)
          ≠ normalize_url "https://a.com/x//".toList := by
  decide

/-- An instance of C8 as amended, at "https://a.com/x/#top". -/
theorem normalize_url_canonical_witness :
    '#' ∉ normalize_url "https://a.com/x/#top".toList
      ∧ ends_with (normalize_url "https://a.com/x/#top".toList) "/".toList = false
      ∧ normalize_url (normalize_url "https://a.com/x/#top".toList)
          = normalize_url "https://a.com/x/#top".toList :=
  ⟨(normalize_url_canonical "https://a.com/x/#top".toList).1, by decide,
   (normalize_url_canonical "https://a.com/x/#top".toList).2.2 (Or.inl (by decide))⟩

theorem spec_match_len_cons (d : Str) (rules : List Str) (path : Str) :
    spec_match_len (d :: rules) path =
      if d.isPrefixOf path = true then max d.length (spec_match_len rules path)
      else spec_match_len rules path := by
  unfold spec_match_len
  by_cases h : d.isPrefixOf path = true
  · simp [List.filter, h]
  · simp [List.filter, h]

theorem robots_loop_eq (path : Str) (rules : List Str) (acc : Nat) :
    rules.foldl
        (fun len d => if starts_with path d && d.length > len then d.length else len) acc
      = max acc (spec_match_len rules path) := by
  induction rules generalizing acc with
  | nil => simp [spec_match_len]
  | cons d rules ih =>
    rw [List.foldl_cons, ih, spec_match_len_cons]
    unfold starts_with
    by_cases h : d.isPrefixOf path = true
    · by_cases h2 : d.length > acc
      · simp only [h, h2, decide_True, Bool.and_self, if_true]
        omega
      · simp only [h, h2, decide_False, Bool.and_false, if_true]
        simp only [Bool.false_eq_true, if_false]
        omega
    · simp only [h, Bool.false_and, if_false]
      simp

theorem robots_len_eq_spec (path : Str) (rules : List Str) :
    robots_len path rules = spec_match_len rules path := by
  unfold robots_len
  rw [robots_loop_eq]
  simp

theorem spec_match_len_upper (rules : List Str) (path : Str) :
    ∀ r ∈ rules, r.isPrefixOf path = true → r.length ≤ spec_match_len rules path := by
  induction rules with
  | nil => simp
  | cons d rules ih =>
    intro r hr hp
    rw [spec_match_len_cons]
    rcases List.mem_cons.1 hr with e | e
    · subst e
      simp only [hp, if_true]
      omega
    · have := ih r e hp
      split <;> omega

theorem spec_match_len_attained (rules : List Str) (path : Str) :
    (∃ r ∈ rules, r.isPrefixOf path = true ∧ r.length = spec_match_len rules path)
      ∨ (spec_match_len rules path = 0 ∧ ∀ r ∈ rules, r.isPrefixOf path = false) := by
  induction rules with
  | nil => right; simp [spec_match_len]
  | cons d rules ih =>
    rw [spec_match_len_cons]
    by_cases h : d.isPrefixOf path = true
    · simp only [h, if_true]
      left
      by_cases hm : spec_match_len rules path ≤ d.length
      · exact ⟨d, List.mem_cons_self _ _, h, by omega⟩
      · rcases ih with ⟨r, hr, hp, hl⟩ | ⟨h0, _⟩
        · exact ⟨r, List.mem_cons_of_mem _ hr, hp, by omega⟩
        · omega
    · simp only [h, if_false]
      rcases ih with ⟨r, hr, hp, hl⟩ | ⟨h0, hall⟩
      · exact Or.inl ⟨r, List.mem_cons_of_mem _ hr, hp, hl⟩
      · right
        refine ⟨h0, ?_⟩
        intro r hr
        rcases List.mem_cons.1 hr with e | e
        · subst e
          exact Bool.eq_false_iff.2 h
        · exact hall r e

/-- C6. `robots_allowed(path)` is true if and only if `allowLen >= disLen`,
where each length is the greatest length of a rule of its list that is a string
prefix of the path, and 0 when no rule of the list is one: `spec_match_len` is
that length (an upper bound of the matching rules that one of them attains, or
0 without a matching rule). Empty lists allow every path, a tie is allowed, and
the longer matching rule wins. -/
theorem robots_allowed_longest_match :
    (∀ (c : Config) (path : Str),
        robots_allowed c path = true ↔
          spec_match_len c.robotsAllow_ path ≥ spec_match_len c.robotsDisallow_ path)
      ∧ (∀ (rules : List Str) (path : Str),
          (∀ r ∈ rules, r.isPrefixOf path = true → r.length ≤ spec_match_len rules path)
          ∧ ((∃ r ∈ rules, r.isPrefixOf path = true ∧ r.length = spec_match_len rules path)
              ∨ (spec_match_len rules path = 0 ∧ ∀ r ∈ rules, r.isPrefixOf path = false)))
      ∧ (∀ (c : Config) (path : Str),
          robots_allowed { c with robotsAllow_ := [], robotsDisallow_ := [] } path = true)
      ∧ (∀ c : Config,
          robots_allowed { c with robotsAllow_ := ["/priv".toList],
                                  robotsDisallow_ := ["/priv".toList] } "/priv/doc".toList = true)
      ∧ (∀ c : Config,
          robots_allowed { c with robotsAllow_ := ["/a/public".toList],
                                  robotsDisallow_ := ["/a".toList] } "/a/public/x".toList = true
          ∧ robots_allowed { c with robotsAllow_ := ["/a/public".toList],
                                    robotsDisallow_ := ["/a".toList] } "/a/secret".toList
              = false) := by
  refine ⟨?_, fun rules path => ⟨spec_match_len_upper rules path,
    spec_match_len_attained rules path⟩, ?_, ?_, ?_⟩
  · intro c path
    unfold robots_allowed
    simp only [robots_len_eq_spec, decide_eq_true_eq]
  · intro c path
    rfl
  · intro c
    rfl
  · intro c
    exact ⟨rfl, rfl⟩

/-! ## Frame lemmas of the crawl iteration -/

theorem enqueue_downloads_frame (url category : Str) (pdfs : List Str) (s : State) :
    (enqueue_downloads url category pdfs s).visitedPages_ = s.visitedPages_
      ∧ (enqueue_downloads url category pdfs s).fetched_ = s.fetched_
      ∧ (enqueue_downloads url category pdfs s).url_queue_ = s.url_queue_
      ∧ (enqueue_downloads url category pdfs s).pending_pages_ = s.pending_pages_
      ∧ (enqueue_downloads url category pdfs s).manifest_ = s.manifest_
      ∧ (enqueue_downloads url category pdfs s).pages_crawled_ = s.pages_crawled_ := by
  unfold enqueue_downloads
  induction pdfs generalizing s with
  | nil => simp
  | cons pdf pdfs ih =>
    rw [List.foldl_cons]
    have h := ih (enqueue_download url category s pdf)
    have e : (enqueue_download url category s pdf).visitedPages_ = s.visitedPages_
        ∧ (enqueue_download url category s pdf).fetched_ = s.fetched_
        ∧ (enqueue_download url category s pdf).url_queue_ = s.url_queue_
        ∧ (enqueue_download url category s pdf).pending_pages_ = s.pending_pages_
        ∧ (enqueue_download url category s pdf).manifest_ = s.manifest_
        ∧ (enqueue_download url category s pdf).pages_crawled_ = s.pages_crawled_ := by
      unfold enqueue_download
      split <;> simp
    rw [h.1, h.2.1, h.2.2.1, h.2.2.2.1, h.2.2.2.2.1, h.2.2.2.2.2]
    exact e

theorem enqueue_links_frame (links : List Str) (s : State) :
    (enqueue_links links s).visitedPages_ = s.visitedPages_
      ∧ (enqueue_links links s).fetched_ = s.fetched_
      ∧ (enqueue_links links s).downloadedPdfs_ = s.downloadedPdfs_
      ∧ (enqueue_links links s).download_queue_ = s.download_queue_
      ∧ (enqueue_links links s).pending_downloads_ = s.pending_downloads_
      ∧ (enqueue_links links s).tasks_ = s.tasks_
      ∧ (enqueue_links links s).manifest_ = s.manifest_
      ∧ (enqueue_links links s).pages_crawled_ = s.pages_crawled_ := by
  unfold enqueue_links
  induction links generalizing s with
  | nil => simp
  | cons l links ih =>
    rw [List.foldl_cons]
    have h := ih (enqueue_link s l)
    have e : (enqueue_link s l).visitedPages_ = s.visitedPages_
        ∧ (enqueue_link s l).fetched_ = s.fetched_
        ∧ (enqueue_link s l).downloadedPdfs_ = s.downloadedPdfs_
        ∧ (enqueue_link s l).download_queue_ = s.download_queue_
        ∧ (enqueue_link s l).pending_downloads_ = s.pending_downloads_
        ∧ (enqueue_link s l).tasks_ = s.tasks_
        ∧ (enqueue_link s l).manifest_ = s.manifest_
        ∧ (enqueue_link s l).pages_crawled_ = s.pages_crawled_ := by
      unfold enqueue_link
      split <;> simp
    rw [h.1, h.2.1, h.2.2.1, h.2.2.2.1, h.2.2.2.2.1, h.2.2.2.2.2.1, h.2.2.2.2.2.2.1,
      h.2.2.2.2.2.2.2]
    exact e

theorem close_if_limit_eq (c : Config) (s : State) : close_if_limit c s = s := by
  unfold close_if_limit
  split
  · split
    · rename_i h
      simp only [Bool.and_eq_true, decide_eq_true_eq] at h
      cases s
      simp_all
    · rfl
  · rfl

theorem process_page_frame (c : Config) (url : Str) (parts : UrlParts) (html : Str)
    (s : State) :
    (process_page c url parts html s).visitedPages_ = s.visitedPages_
      ∧ (process_page c url parts html s).fetched_ = s.fetched_
      ∧ (process_page c url parts html s).manifest_ = s.manifest_ := by
  unfold process_page
  simp only [close_if_limit_eq]
  split
  · simp only [(enqueue_links_frame _ _).1, (enqueue_links_frame _ _).2.1,
      (enqueue_links_frame _ _).2.2.2.2.2.2.1, (enqueue_downloads_frame _ _ _ _).1,
      (enqueue_downloads_frame _ _ _ _).2.1, (enqueue_downloads_frame _ _ _ _).2.2.2.2.1]
    simp
  · simp only [(enqueue_downloads_frame _ _ _ _).1,
      (enqueue_downloads_frame _ _ _ _).2.1, (enqueue_downloads_frame _ _ _ _).2.2.2.2.1]
    simp

/-- What an iteration does to `visitedPages_` and to the list of fetched URLs:
nothing, or it inserts the normalized front of the queue, which was absent,
and then fetches that URL or not. -/
theorem crawl_iter_visited_fetched (c : Config) (r : FetchResult) (s s2 : State)
    (h : crawl_iter c r s = some s2) :
    (s2.visitedPages_ = s.visitedPages_ ∧ s2.fetched_ = s.fetched_)
      ∨ ∃ front queue, s.url_queue_ = front :: queue
          ∧ normalize_url front ∉ s.visitedPages_
          ∧ s2.visitedPages_ = normalize_url front :: s.visitedPages_
          ∧ (s2.fetched_ = s.fetched_ ∨ s2.fetched_ = s.fetched_ ++ [normalize_url front]) := by
  unfold crawl_iter at h
  split at h
  · cases h
  · rename_i front queue hq
    simp only at h
    split at h
    · cases h
      exact Or.inl ⟨rfl, rfl⟩
    · split at h
      · cases h
        exact Or.inl ⟨rfl, rfl⟩
      · rename_i hv
        right
        refine ⟨front, queue, hq, hv, ?_⟩
        split at h
        · cases h
          exact ⟨rfl, Or.inl rfl⟩
        · split at h
          · cases h
            exact ⟨rfl, Or.inr rfl⟩
          · cases h
            rw [(process_page_frame _ _ _ _ _).1, (process_page_frame _ _ _ _ _).2.1]
            exact ⟨rfl, Or.inr rfl⟩

/-- A property every iteration keeps holds along a whole run of the worker. -/
theorem crawl_run_induction (c : Config) (P : State → Prop)
    (hstep : ∀ r s s2, P s → crawl_iter c r s = some s2 → P s2) :
    ∀ (resps : List FetchResult) (s : State), P s → P (crawl_run c resps s) := by
  intro resps
  induction resps with
  | nil => intro s hs; exact hs
  | cons r rs ih =>
    intro s hs
    unfold crawl_run
    cases h : crawl_iter c r s with
    | none => exact hs
    | some s2 => exact ih s2 (hstep r s s2 hs h)

theorem fetched_invariant_step (c : Config) (r : FetchResult) (s s2 : State)
    (hs : s.fetched_.Nodup ∧ ∀ u ∈ s.fetched_, u ∈ s.visitedPages_)
    (h : crawl_iter c r s = some s2) :
    s2.fetched_.Nodup ∧ ∀ u ∈ s2.fetched_, u ∈ s2.visitedPages_ := by
  rcases crawl_iter_visited_fetched c r s s2 h with ⟨hv, hf⟩ | ⟨front, queue, _, hnv, hv, hf⟩
  · rw [hv, hf]
    exact hs
  · rw [hv]
    rcases hf with hf | hf
    · rw [hf]
      exact ⟨hs.1, fun u hu => List.mem_cons_of_mem _ (hs.2 u hu)⟩
    · rw [hf]
      constructor
      · rw [List.nodup_append]
        refine ⟨hs.1, List.nodup_singleton _, ?_⟩
        intro a ha hb
        rw [List.mem_singleton] at hb
        subst hb
        exact hnv (hs.2 _ ha)
      · intro u hu
        rcases List.mem_append.1 hu with hu | hu
        · exact List.mem_cons_of_mem _ (hs.2 u hu)
        · rw [List.mem_singleton] at hu
          subst hu
          exact List.mem_cons_self _ _

/-- C4. At most one fetch per page URL. In every run of `crawl_worker`
iterations from the state `run()` seeds, the list of the URLs passed to
`fetch_text` has no duplicates and each of them is in `visitedPages_`. An
iteration never removes an element of `visitedPages_`, and it fetches only the
re-normalized front of the queue, only when that URL was absent from
`visitedPages_` at the start of the iteration, and with the URL inserted. -/
theorem at_most_one_fetch_per_page (c : Config) :
    (∀ resps : List FetchResult,
        (crawl_run c resps (seed c)).fetched_.Nodup
        ∧ ∀ u ∈ (crawl_run c resps (seed c)).fetched_,
            u ∈ (crawl_run c resps (seed c)).visitedPages_)
      ∧ (∀ (r : FetchResult) (s s2 : State), crawl_iter c r s = some s2 →
          s.visitedPages_ ⊆ s2.visitedPages_
          ∧ (s2.fetched_ = s.fetched_
              ∨ ∃ front queue, s.url_queue_ = front :: queue
                  ∧ normalize_url front ∉ s.visitedPages_
                  ∧ normalize_url front ∈ s2.visitedPages_
                  ∧ s2.fetched_ = s.fetched_ ++ [normalize_url front])) := by
  constructor
  · intro resps
    exact crawl_run_induction c
      (fun s => s.fetched_.Nodup ∧ ∀ u ∈ s.fetched_, u ∈ s.visitedPages_)
      (fun r s s2 hs h => fetched_invariant_step c r s s2 hs h) resps (seed c)
      ⟨List.nodup_nil, fun u hu => by cases hu⟩
  · intro r s s2 h
    rcases crawl_iter_visited_fetched c r s s2 h with ⟨hv, hf⟩ | ⟨front, queue, hq, hnv, hv, hf⟩
    · rw [hv]
      exact ⟨fun _ hx => hx, Or.inl hf⟩
    · rw [hv]
      refine ⟨fun _ hx => List.mem_cons_of_mem _ hx, ?_⟩
      rcases hf with hf | hf
      · exact Or.inl hf
      · exact Or.inr ⟨front, queue, hq, hnv, List.mem_cons_self _ _, hf⟩

/-! ## The download tasks created by the crawl -/

theorem TasksExtend.of_eq (s s2 : State) (h1 : s2.downloadedPdfs_ = s.downloadedPdfs_)
    (h2 : s2.download_queue_ = s.download_queue_) (h3 : s2.tasks_ = s.tasks_) :
    TasksExtend s s2 :=
  ⟨by rw [h1]; exact fun _ h => h, [], by simp [h2], by simp [h3], List.nodup_nil,
    fun t ht => by cases ht⟩

theorem TasksExtend.trans (a b d : State) (h1 : TasksExtend a b) (h2 : TasksExtend b d) :
    TasksExtend a d := by
  obtain ⟨s1, n1, q1, t1, d1, m1⟩ := h1
  obtain ⟨s2, n2, q2, t2, d2, m2⟩ := h2
  refine ⟨fun _ h => s2 (s1 h), n1 ++ n2, ?_, ?_, ?_, ?_⟩
  · rw [q2, q1, List.append_assoc]
  · rw [t2, t1, List.append_assoc]
  · rw [List.map_append, List.nodup_append]
    refine ⟨d1, d2, ?_⟩
    intro u hu1 hu2
    obtain ⟨t, ht, rfl⟩ := List.mem_map.1 hu1
    obtain ⟨t2, ht2, e⟩ := List.mem_map.1 hu2
    exact (m2 t2 ht2).1 (e ▸ (m1 t ht).2)
  · intro t ht
    rcases List.mem_append.1 ht with h | h
    · exact ⟨(m1 t h).1, s2 (m1 t h).2⟩
    · exact ⟨fun hm => (m2 t h).1 (s1 hm), (m2 t h).2⟩

theorem TasksInv.extend (s s2 : State) (hs : TasksInv s) (he : TasksExtend s s2) :
    TasksInv s2 := by
  obtain ⟨sub, new, _, ht, hd, hm⟩ := he
  constructor
  · rw [ht, List.map_append, List.nodup_append]
    refine ⟨hs.1, hd, ?_⟩
    intro u hu1 hu2
    obtain ⟨t, ht, rfl⟩ := List.mem_map.1 hu1
    obtain ⟨t2, ht2, e⟩ := List.mem_map.1 hu2
    exact (hm t2 ht2).1 (e ▸ hs.2 t ht)
  · intro t htm
    rw [ht] at htm
    rcases List.mem_append.1 htm with h | h
    · exact sub (hs.2 t h)
    · exact (hm t h).2

theorem enqueue_download_tasks (url category : Str) (s : State) (pdf : Str) :
    TasksExtend s (enqueue_download url category s pdf) := by
  unfold enqueue_download
  split
  · exact TasksExtend.of_eq s s rfl rfl rfl
  · rename_i hnew
    refine ⟨fun x hx => List.mem_cons_of_mem _ hx, [(⟨pdf, url, category⟩ : DownloadTask)],
      rfl, rfl, List.nodup_singleton _, ?_⟩
    intro t ht
    rw [List.mem_singleton] at ht
    subst ht
    exact ⟨hnew, List.mem_cons_self _ _⟩

theorem enqueue_downloads_tasks (url category : Str) (pdfs : List Str) (s : State) :
    TasksExtend s (enqueue_downloads url category pdfs s) := by
  unfold enqueue_downloads
  induction pdfs generalizing s with
  | nil => exact TasksExtend.of_eq s s rfl rfl rfl
  | cons pdf pdfs ih =>
    rw [List.foldl_cons]
    exact TasksExtend.trans _ _ _ (enqueue_download_tasks url category s pdf)
      (ih (enqueue_download url category s pdf))

theorem process_page_tasks (c : Config) (url : Str) (parts : UrlParts) (html : Str)
    (s : State) : TasksExtend s (process_page c url parts html s) := by
  have hd := enqueue_downloads_tasks url (get_category_from_url url) (page_pdfs c parts html)
    { s with pages_crawled_ := s.pages_crawled_ + 1 }
  have h0 : TasksExtend s { s with pages_crawled_ := s.pages_crawled_ + 1 } :=
    TasksExtend.of_eq _ _ rfl rfl rfl
  unfold process_page
  simp only [close_if_limit_eq]
  split
  · refine TasksExtend.trans _ _ _ (TasksExtend.trans _ _ _ h0 hd)
      (TasksExtend.of_eq _ _ ?_ ?_ ?_)
    · exact (enqueue_links_frame _ _).2.2.1
    · exact (enqueue_links_frame _ _).2.2.2.1
    · exact (enqueue_links_frame _ _).2.2.2.2.2.1
  · exact TasksExtend.trans _ _ _ (TasksExtend.trans _ _ _ h0 hd)
      (TasksExtend.of_eq _ _ rfl rfl rfl)

theorem crawl_iter_tasks (c : Config) (r : FetchResult) (s s2 : State)
    (h : crawl_iter c r s = some s2) : TasksExtend s s2 := by
  unfold crawl_iter at h
  split at h
  · cases h
  · simp only at h
    split at h
    · cases h
      exact TasksExtend.of_eq _ _ rfl rfl rfl
    · split at h
      · cases h
        exact TasksExtend.of_eq _ _ rfl rfl rfl
      · split at h
        · cases h
          exact TasksExtend.of_eq _ _ rfl rfl rfl
        · split at h
          · cases h
            exact TasksExtend.of_eq _ _ rfl rfl rfl
          · cases h
            refine TasksExtend.trans _ _ _ ?_ (process_page_tasks c _ _ _ _)
            exact TasksExtend.of_eq _ _ rfl rfl rfl

theorem crawl_run_tasks (c : Config) (resps : List FetchResult) :
    TasksInv (crawl_run c resps (seed c))
      ∧ (crawl_run c resps (seed c)).download_queue_ = (crawl_run c resps (seed c)).tasks_ :=
  crawl_run_induction c
    (fun s => TasksInv s ∧ s.download_queue_ = s.tasks_)
    (fun r s s2 hs h => by
      have he := crawl_iter_tasks c r s s2 h
      refine ⟨TasksInv.extend s s2 hs.1 he, ?_⟩
      obtain ⟨_, new, hq, ht, _, _⟩ := he
      rw [hq, ht, hs.2]) resps (seed c)
    ⟨⟨List.nodup_nil, fun t ht => by cases ht⟩, rfl⟩

/-- C5. At most one DownloadTask per target URL. In every run of `crawl_worker`
iterations from the state `run()` seeds, whatever the pages fetched, the URLs
of all the tasks pushed onto `download_queue_` so far are pairwise distinct and
each of them is in `downloadedPdfs_`; as no download worker runs, the queue
holds exactly these tasks. An iteration removes nothing from `downloadedPdfs_`
and appends the same new tasks to the queue and to that history, each with a URL
that was absent from `downloadedPdfs_` and is in it when the iteration ends. -/
theorem at_most_one_task_per_target (c : Config) :
    (∀ resps : List FetchResult,
        ((crawl_run c resps (seed c)).tasks_.map DownloadTask.url).Nodup
        ∧ (∀ t ∈ (crawl_run c resps (seed c)).tasks_,
            t.url ∈ (crawl_run c resps (seed c)).downloadedPdfs_)
        ∧ (crawl_run c resps (seed c)).download_queue_ = (crawl_run c resps (seed c)).tasks_)
      ∧ (∀ (r : FetchResult) (s s2 : State), crawl_iter c r s = some s2 →
          s.downloadedPdfs_ ⊆ s2.downloadedPdfs_
          ∧ ∃ new : List DownloadTask, s2.download_queue_ = s.download_queue_ ++ new
              ∧ s2.tasks_ = s.tasks_ ++ new
              ∧ ∀ t ∈ new, t.url ∉ s.downloadedPdfs_ ∧ t.url ∈ s2.downloadedPdfs_) := by
  constructor
  · intro resps
    have h := crawl_run_tasks c resps
    exact ⟨h.1.1, h.1.2, h.2⟩
  · intro r s s2 h
    obtain ⟨sub, new, hq, ht, _, hm⟩ := crawl_iter_tasks c r s s2 h
    exact ⟨sub, new, hq, ht, hm⟩

/-! ## Termination on a leaf seed -/

/-- C3. Termination on a leaf seed. If the URL the first iteration works on
(the seed, re-normalized) parses and its path is allowed by the robots rules,
and the fetch returns status 200 and a non-empty body from which no link and no
target URL is extracted, then that iteration ends in a state with `url_queue_`
empty, `pending_pages_ == 0`, `download_queue_` empty, `pending_downloads_ == 0`
and an empty manifest: the exit conditions of `crawl_worker` and of
`download_worker` hold, neither worker has a task to dequeue, and the manifest
`run()` writes has no entry. -/
theorem leaf_seed_terminates (c : Config) (resp : FetchResult) (parts : UrlParts)
    (hparse : parse_url (normalize_url (normalize_url c.baseUrl_)) = some parts)
    (hrobots : robots_allowed c parts.path = true)
    (hstatus : resp.status = 200) (hbody : resp.body ≠ [])
    (hlinks : extract_links c resp.body (normalize_url (normalize_url c.baseUrl_)) = [])
    (hpdfs : page_pdfs c parts resp.body = []) :
    ∃ s, crawl_iter c resp (seed c) = some s
      ∧ s.url_queue_ = [] ∧ s.pending_pages_ = 0
      ∧ s.download_queue_ = [] ∧ s.pending_downloads_ = 0 ∧ s.manifest_ = []
      ∧ crawl_exit s = true ∧ download_exit s = true
      ∧ crawl_iter c resp s = none ∧ (∀ r, download_iter c r s = none)
      ∧ write_manifest s = [] := by
  have hb : resp.body.isEmpty = false := by
    cases hr : resp.body with
    | nil => exact absurd hr hbody
    | cons _ _ => rfl
  have hiter : crawl_iter c resp (seed c) = some
      { seed c with url_queue_ := [],
                    visitedPages_ := [normalize_url (normalize_url c.baseUrl_)],
                    fetched_ := [normalize_url (normalize_url c.baseUrl_)],
                    pages_crawled_ := 1, pending_pages_ := 0 } := by
    simp [crawl_iter, seed, hparse, hrobots, hstatus, hb, process_page, hlinks, hpdfs,
      enqueue_downloads, enqueue_links, close_if_limit_eq]
  refine ⟨_, hiter, rfl, rfl, rfl, rfl, rfl, rfl, rfl, rfl, fun r => rfl, rfl⟩

/-- The witness of C3: the seed https://a.com, no robots rule, and a page
without anchor or target. -/
theorem leaf_seed_terminates_witness :
    ∃ s, crawl_iter site_a ⟨200, "<html><p>no links here</p></html>".toList⟩ (seed site_a)
        = some s
      ∧ s.url_queue_ = [] ∧ s.pending_pages_ = 0
      ∧ s.download_queue_ = [] ∧ s.pending_downloads_ = 0 ∧ s.manifest_ = []
      ∧ crawl_exit s = true ∧ download_exit s = true
      ∧ crawl_iter site_a ⟨200, "<html><p>no links here</p></html>".toList⟩ s = none
      ∧ (∀ r, download_iter site_a r s = none)
      ∧ write_manifest s = [] :=
  leaf_seed_terminates site_a ⟨200, "<html><p>no links here</p></html>".toList⟩
    ⟨"https".toList, "a.com".toList, "/".toList⟩
    (by rfl) (by rfl) (by rfl) (by decide) (by rfl) (by rfl)

/-! ## The manifest -/

/-- C1 fails on the code: an iteration that leaves by one of the three early
`continue`s does not decrement `pending_pages_`. (a) The seed is disallowed by
robots: the iteration ends with an empty queue and `pending_pages_ = 1`, so the
exit condition is false and no URL is left to dequeue. (b) The fetched seed page
links to the seed, which is pushed again; the second iteration finds it in
`visitedPages_` and ends with an empty queue and `pending_pages_ = 1`. (c) The
seed no longer parses once re-normalized: the same end. -/
theorem pending_pages_kept_on_continue :
    (∃ s, crawl_iter site_a_closed home_link_page (seed site_a_closed) = some s
        ∧ s.url_queue_ = [] ∧ s.pending_pages_ = 1 ∧ s.fetched_ = []
        ∧ crawl_exit s = false ∧ crawl_iter site_a_closed home_link_page s = none)
      ∧ (∃ s1 s2, crawl_iter site_a home_link_page (seed site_a) = some s1
          ∧ s1.url_queue_ = ["https://a.com".toList] ∧ s1.pending_pages_ = 1
          ∧ crawl_iter site_a home_link_page s1 = some s2
          ∧ s2.url_queue_ = [] ∧ s2.pending_pages_ = 1 ∧ s2.fetched_ = s1.fetched_
          ∧ crawl_exit s2 = false)
      ∧ (construct "http://#/x".toList "out".toList 0 [".pdf".toList] .eps = some site_hash
          ∧ ∃ s, crawl_iter site_hash home_link_page (seed site_hash) = some s
            ∧ s.url_queue_ = [] ∧ s.pending_pages_ = 1 ∧ crawl_exit s = false) :=
  ⟨⟨_, rfl, rfl, rfl, rfl, rfl, rfl⟩, ⟨_, _, rfl, rfl, rfl, rfl, rfl, rfl, rfl, rfl⟩,
    rfl, ⟨_, rfl, rfl, rfl, rfl⟩⟩

/-- C2 fails on the code: `run()` pushes the seed without inserting it into
`enqueuedPages_`, so a fetched page that links to the seed has it pushed a
second time. After the first iteration on such a seed page the URLs pushed so
far are the seed twice, and the seed is in the queue again, to be dequeued a
second time. -/
theorem seed_pushed_twice :
    construct "https://a.com".toList "out".toList 0 [".pdf".toList] .eps = some site_a
      ∧ (seed site_a).url_queue_ = ["https://a.com".toList]
      ∧ (seed site_a).enqueuedPages_ = []
      ∧ ∃ s, crawl_iter site_a home_link_page (seed site_a) = some s
          ∧ s.pushed_ = ["https://a.com".toList, "https://a.com".toList]
          ∧ ¬ s.pushed_.Nodup
          ∧ s.url_queue_ = ["https://a.com".toList] :=
  ⟨rfl, rfl, rfl, _, rfl, rfl, by decide, rfl⟩

/-! ## The balance of `pending_pages_` against the queue -/

theorem enqueue_links_balance (links : List Str) (s : State) :
    (enqueue_links links s).pending_pages_ - (enqueue_links links s).url_queue_.length
      = s.pending_pages_ - s.url_queue_.length := by
  unfold enqueue_links
  induction links generalizing s with
  | nil => rfl
  | cons l links ih =>
    rw [List.foldl_cons, ih]
    unfold enqueue_link
    split
    · rfl
    · simp only [List.length_append, List.length_singleton, Nat.cast_add, Nat.cast_one]
      omega

theorem process_page_balance (c : Config) (url : Str) (parts : UrlParts) (html : Str)
    (s : State) :
    (process_page c url parts html s).pending_pages_
        - (process_page c url parts html s).url_queue_.length
      = s.pending_pages_ - 1 - s.url_queue_.length := by
  unfold process_page
  simp only [close_if_limit_eq]
  split
  · have h := enqueue_links_balance (extract_links c html url)
      (enqueue_downloads url (get_category_from_url url) (page_pdfs c parts html)
        { s with pages_crawled_ := s.pages_crawled_ + 1 })
    rw [(enqueue_downloads_frame _ _ _ _).2.2.2.1, (enqueue_downloads_frame _ _ _ _).2.2.1] at h
    simp only at h ⊢
    omega
  · simp only [(enqueue_downloads_frame _ _ _ _).2.2.2.1, (enqueue_downloads_frame _ _ _ _).2.2.1]

/-- How an iteration moves `pending_pages_` against the length of the page
queue. The dequeue shortens the queue by one; an iteration that calls
`fetch_text` also takes one off `pending_pages_` for the finished task, pushes
counted apart, and an iteration that leaves by an early `continue` takes
nothing off. -/
theorem crawl_iter_balance (c : Config) (r : FetchResult) (s s2 : State)
    (h : crawl_iter c r s = some s2) :
    (s2.fetched_ ≠ s.fetched_
        ∧ s2.pending_pages_ - s2.url_queue_.length = s.pending_pages_ - s.url_queue_.length)
      ∨ (s2.fetched_ = s.fetched_
        ∧ s2.pending_pages_ - s2.url_queue_.length
            = s.pending_pages_ - s.url_queue_.length + 1) := by
  unfold crawl_iter at h
  split at h
  · cases h
  · rename_i front queue hq
    simp only at h
    split at h
    · cases h
      right
      refine ⟨rfl, ?_⟩
      simp only [hq, List.length_cons, Nat.cast_add, Nat.cast_one]
      omega
    · split at h
      · cases h
        right
        refine ⟨rfl, ?_⟩
        simp only [hq, List.length_cons, Nat.cast_add, Nat.cast_one]
        omega
      · split at h
        · cases h
          right
          refine ⟨rfl, ?_⟩
          simp only [hq, List.length_cons, Nat.cast_add, Nat.cast_one]
          omega
        · split at h
          · cases h
            left
            refine ⟨by simp, ?_⟩
            simp only [hq, List.length_cons, Nat.cast_add, Nat.cast_one]
            omega
          · cases h
            left
            rw [process_page_balance, (process_page_frame _ _ _ _ _).2.1]
            refine ⟨by simp, ?_⟩
            simp only [hq, List.length_cons, Nat.cast_add, Nat.cast_one]
            omega

/-! ## The pushes of the link loop -/

/-- The link loop appends to the history of pushes URLs that are pairwise
distinct, were absent from `enqueuedPages_` and are in it afterwards, and it
removes nothing from `enqueuedPages_`. -/
theorem enqueue_links_pushed (links : List Str) (s : State) :
    s.enqueuedPages_ ⊆ (enqueue_links links s).enqueuedPages_
      ∧ ∃ new : List Str, (enqueue_links links s).pushed_ = s.pushed_ ++ new
          ∧ (enqueue_links links s).url_queue_ = s.url_queue_ ++ new
          ∧ new.Nodup
          ∧ ∀ u ∈ new, u ∉ s.enqueuedPages_ ∧ u ∈ (enqueue_links links s).enqueuedPages_ := by
  unfold enqueue_links
  induction links generalizing s with
  | nil => exact ⟨fun _ h => h, [], by simp, by simp, List.nodup_nil, fun u hu => by cases hu⟩
  | cons l links ih =>
    rw [List.foldl_cons]
    obtain ⟨sub, new, hp, hq, hd, hm⟩ := ih (enqueue_link s l)
    by_cases hl : l ∈ s.enqueuedPages_
    · have e : enqueue_link s l = s := by simp [enqueue_link, hl]
      rw [e] at sub hp hq hm ⊢
      exact ⟨sub, new, hp, hq, hd, hm⟩
    · have e1 : (enqueue_link s l).enqueuedPages_ = l :: s.enqueuedPages_ := by
        simp [enqueue_link, hl]
      have e2 : (enqueue_link s l).pushed_ = s.pushed_ ++ [l] := by simp [enqueue_link, hl]
      have e3 : (enqueue_link s l).url_queue_ = s.url_queue_ ++ [l] := by
        simp [enqueue_link, hl]
      rw [e1] at sub hm
      refine ⟨fun x hx => sub (List.mem_cons_of_mem _ hx), l :: new, ?_, ?_, ?_, ?_⟩
      · rw [hp, e2, List.append_assoc, List.singleton_append]
      · rw [hq, e3, List.append_assoc, List.singleton_append]
      · rw [List.nodup_cons]
        exact ⟨fun hmem => (hm l hmem).1 (List.mem_cons_self _ _), hd⟩
      · intro u hu
        rcases List.mem_cons.1 hu with h | h
        · subst h
          exact ⟨hl, sub (List.mem_cons_self _ _)⟩
        · exact ⟨fun hx => (hm u h).1 (List.mem_cons_of_mem _ hx), (hm u h).2⟩

theorem enqueue_downloads_frame_pushed (url category : Str) (pdfs : List Str) (s : State) :
    (enqueue_downloads url category pdfs s).enqueuedPages_ = s.enqueuedPages_
      ∧ (enqueue_downloads url category pdfs s).pushed_ = s.pushed_ := by
  unfold enqueue_downloads
  induction pdfs generalizing s with
  | nil => simp
  | cons pdf pdfs ih =>
    rw [List.foldl_cons, (ih _).1, (ih _).2]
    unfold enqueue_download
    split <;> simp

theorem process_page_pushed (c : Config) (url : Str) (parts : UrlParts) (html : Str)
    (s : State) :
    s.enqueuedPages_ ⊆ (process_page c url parts html s).enqueuedPages_
      ∧ ∃ new : List Str, (process_page c url parts html s).pushed_ = s.pushed_ ++ new
          ∧ new.Nodup
          ∧ ∀ u ∈ new, u ∉ s.enqueuedPages_
              ∧ u ∈ (process_page c url parts html s).enqueuedPages_ := by
  unfold process_page
  simp only [close_if_limit_eq]
  split
  · obtain ⟨sub, new, hp, _, hd, hm⟩ := enqueue_links_pushed (extract_links c html url)
      (enqueue_downloads url (get_category_from_url url) (page_pdfs c parts html)
        { s with pages_crawled_ := s.pages_crawled_ + 1 })
    rw [(enqueue_downloads_frame_pushed _ _ _ _).1] at sub hm
    rw [(enqueue_downloads_frame_pushed _ _ _ _).2] at hp
    exact ⟨sub, new, hp, hd, hm⟩
  · simp only [(enqueue_downloads_frame_pushed _ _ _ _).1,
      (enqueue_downloads_frame_pushed _ _ _ _).2]
    exact ⟨fun _ hx => hx, [], by simp, List.nodup_nil, fun u hu => by cases hu⟩

/-- An iteration removes nothing from `enqueuedPages_`, and the URLs it pushes
are pairwise distinct, were absent from `enqueuedPages_` and are in it
afterwards. -/
theorem crawl_iter_pushed (c : Config) (r : FetchResult) (s s2 : State)
    (h : crawl_iter c r s = some s2) :
    s.enqueuedPages_ ⊆ s2.enqueuedPages_
      ∧ ∃ new : List Str, s2.pushed_ = s.pushed_ ++ new ∧ new.Nodup
          ∧ ∀ u ∈ new, u ∉ s.enqueuedPages_ ∧ u ∈ s2.enqueuedPages_ := by
  have hnone : ∀ t : State, t.enqueuedPages_ = s.enqueuedPages_ → t.pushed_ = s.pushed_ →
      s.enqueuedPages_ ⊆ t.enqueuedPages_
        ∧ ∃ new : List Str, t.pushed_ = s.pushed_ ++ new ∧ new.Nodup
            ∧ ∀ u ∈ new, u ∉ s.enqueuedPages_ ∧ u ∈ t.enqueuedPages_ := by
    intro t h1 h2
    rw [h1, h2]
    exact ⟨fun _ hx => hx, [], by simp, List.nodup_nil, fun u hu => by cases hu⟩
  unfold crawl_iter at h
  split at h
  · cases h
  · simp only at h
    split at h
    · cases h
      exact hnone _ rfl rfl
    · split at h
      · cases h
        exact hnone _ rfl rfl
      · split at h
        · cases h
          exact hnone _ rfl rfl
        · split at h
          · cases h
            exact hnone _ rfl rfl
          · cases h
            have hframe : ∀ a t : State,
                (a.enqueuedPages_ ⊆ t.enqueuedPages_
                  ∧ ∃ new : List Str, t.pushed_ = a.pushed_ ++ new ∧ new.Nodup
                      ∧ ∀ u ∈ new, u ∉ a.enqueuedPages_ ∧ u ∈ t.enqueuedPages_) →
                a.enqueuedPages_ = s.enqueuedPages_ → a.pushed_ = s.pushed_ →
                s.enqueuedPages_ ⊆ t.enqueuedPages_
                  ∧ ∃ new : List Str, t.pushed_ = s.pushed_ ++ new ∧ new.Nodup
                      ∧ ∀ u ∈ new, u ∉ s.enqueuedPages_ ∧ u ∈ t.enqueuedPages_ := by
              intro a t ha h1 h2
              rw [← h1, ← h2]
              exact ha
            exact hframe _ _ (process_page_pushed c _ _ _ _) rfl rfl

/-- What the page queue does guarantee: in every run from the seeded state the
URLs pushed after the seed are pairwise distinct members of `enqueuedPages_`
(the seed itself may be among them, once). -/
theorem crawl_run_pushed (c : Config) (resps : List FetchResult) :
    ∃ rest : List Str, (crawl_run c resps (seed c)).pushed_ = normalize_url c.baseUrl_ :: rest
      ∧ rest.Nodup ∧ ∀ u ∈ rest, u ∈ (crawl_run c resps (seed c)).enqueuedPages_ := by
  refine crawl_run_induction c
    (fun s => ∃ rest : List Str, s.pushed_ = normalize_url c.baseUrl_ :: rest
      ∧ rest.Nodup ∧ ∀ u ∈ rest, u ∈ s.enqueuedPages_) ?_ resps (seed c)
    ⟨[], rfl, List.nodup_nil, fun u hu => by cases hu⟩
  rintro r s s2 ⟨rest, hp, hd, hm⟩ h
  obtain ⟨sub, new, hp2, hd2, hm2⟩ := crawl_iter_pushed c r s s2 h
  refine ⟨rest ++ new, by rw [hp2, hp]; rfl, ?_, ?_⟩
  · rw [List.nodup_append]
    exact ⟨hd, hd2, fun u hu1 hu2 => (hm2 u hu2).1 (hm u hu1)⟩
  · intro u hu
    rcases List.mem_append.1 hu with h1 | h1
    · exact sub (hm u h1)
    · exact (hm2 u h1).2

/-! ## Single-quoted targets -/

/-- C13 fails on the code: the target loop reads sub-matches 1 and 2 of
`pdf_re`, as `extract_links` does for its own pattern, but in `pdf_re` the
single-quoted value is sub-match 4 (2 is the extension of the double-quoted
value). A match of the single-quoted alternative therefore gives the empty
link and is skipped: the page with the double-quoted value has the target set
holding the resolved value, the pages with the same value in single quotes
(`href` or `src`) have an empty target set and create no download task,
although the pattern matched the value and `extract_links` returns it. -/
theorem single_quoted_target_dropped :
    page_pdfs site_a ⟨"https".toList, "a.com".toList, "/".toList⟩ double_quoted_page
        = ["https://a.com/q.pdf".toList]
      ∧ page_pdfs site_a ⟨"https".toList, "a.com".toList, "/".toList⟩ single_quoted_page = []
      ∧ page_pdfs site_a ⟨"https".toList, "a.com".toList, "/".toList⟩ single_quoted_src_page = []
      ∧ regex_iter (pdf_re site_a) single_quoted_page
          = [[(4, "/q.pdf".toList), (5, ".pdf".toList), (6, ".pdf".toList)]]
      ∧ (∀ m : Smatch, m.lookup 1 = none → m.lookup 2 = none → match_link m = [])
      ∧ extract_links site_a single_quoted_page "https://a.com".toList
          = ["https://a.com/q.pdf".toList]
      ∧ (∃ s, crawl_iter site_a ⟨200, double_quoted_page⟩ (seed site_a) = some s
          ∧ s.tasks_.map DownloadTask.url = ["https://a.com/q.pdf".toList])
      ∧ (∃ s, crawl_iter site_a ⟨200, single_quoted_page⟩ (seed site_a) = some s
          ∧ s.tasks_ = []) := by
  refine ⟨by rfl, by rfl, by rfl, by rfl, ?_, by rfl, ⟨_, rfl, by rfl⟩, ⟨_, rfl, by rfl⟩⟩
  intro m h1 h2
  simp [match_link, sm_matched, sm_str, h1, h2]

/-! ## The soft page cap -/

/-- The link loop pushes exactly the links that are absent from
`enqueuedPages_`, each once, and inserts them into `enqueuedPages_`. -/
theorem enqueue_links_exact (links : List Str) (s : State) :
    ∃ new : List Str, (enqueue_links links s).pushed_ = s.pushed_ ++ new
      ∧ (enqueue_links links s).url_queue_ = s.url_queue_ ++ new
      ∧ new.Nodup
      ∧ (∀ u, u ∈ new ↔ u ∈ links ∧ u ∉ s.enqueuedPages_)
      ∧ (∀ u, u ∈ (enqueue_links links s).enqueuedPages_ ↔ u ∈ s.enqueuedPages_ ∨ u ∈ new) := by
  unfold enqueue_links
  induction links generalizing s with
  | nil => exact ⟨[], by simp, by simp, List.nodup_nil, by simp, by simp⟩
  | cons l links ih =>
    rw [List.foldl_cons]
    obtain ⟨new, hp, hq, hd, hm, he⟩ := ih (enqueue_link s l)
    by_cases hl : l ∈ s.enqueuedPages_
    · have e : enqueue_link s l = s := by simp [enqueue_link, hl]
      rw [e] at hp hq hm he ⊢
      refine ⟨new, hp, hq, hd, ?_, he⟩
      intro u
      rw [hm u, List.mem_cons]
      constructor
      · rintro ⟨h1, h2⟩
        exact ⟨Or.inr h1, h2⟩
      · rintro ⟨h1 | h1, h2⟩
        · exact absurd (h1 ▸ hl) h2
        · exact ⟨h1, h2⟩
    · have e1 : (enqueue_link s l).enqueuedPages_ = l :: s.enqueuedPages_ := by
        simp [enqueue_link, hl]
      have e2 : (enqueue_link s l).pushed_ = s.pushed_ ++ [l] := by simp [enqueue_link, hl]
      have e3 : (enqueue_link s l).url_queue_ = s.url_queue_ ++ [l] := by
        simp [enqueue_link, hl]
      rw [e1] at hm he
      refine ⟨l :: new, ?_, ?_, ?_, ?_, ?_⟩
      · rw [hp, e2, List.append_assoc, List.singleton_append]
      · rw [hq, e3, List.append_assoc, List.singleton_append]
      · rw [List.nodup_cons]
        exact ⟨fun hmem => ((hm l).1 hmem).2 (List.mem_cons_self _ _), hd⟩
      · intro u
        rw [List.mem_cons, hm u, List.mem_cons, List.mem_cons]
        constructor
        · rintro (h | ⟨h1, h2⟩)
          · exact ⟨Or.inl h, h ▸ hl⟩
          · exact ⟨Or.inr h1, fun hx => h2 (Or.inr hx)⟩
        · rintro ⟨h1 | h1, h2⟩
          · exact Or.inl h1
          · by_cases hu : u = l
            · exact Or.inl hu
            · exact Or.inr ⟨h1, fun hx => hx.elim hu h2⟩
      · intro u
        rw [he u, List.mem_cons, List.mem_cons]
        tauto

/-- An iteration whose URL parses, is new, is allowed and is fetched with
status 200 and a non-empty text ends in the state `process_page` gives. -/
theorem crawl_iter_success (c : Config) (resp : FetchResult) (s : State) (front : Str)
    (queue : List Str) (parts : UrlParts)
    (hq : s.url_queue_ = front :: queue)
    (hparse : parse_url (normalize_url front) = some parts)
    (hvis : normalize_url front ∉ s.visitedPages_)
    (hrobots : robots_allowed c parts.path = true)
    (hstatus : resp.status = 200) (hbody : resp.body ≠ []) :
    crawl_iter c resp s = some (process_page c (normalize_url front) parts resp.body
      { s with url_queue_ := queue,
               visitedPages_ := normalize_url front :: s.visitedPages_,
               fetched_ := s.fetched_ ++ [normalize_url front] }) := by
  have hb : resp.body.isEmpty = false := by
    cases hr : resp.body with
    | nil => exact absurd hr hbody
    | cons _ _ => rfl
  unfold crawl_iter
  rw [hq]
  simp only [hparse, hvis, hrobots, hstatus, hb, if_false, Bool.not_true, Bool.false_eq_true,
    bne_self_eq_false, Bool.or_self]

/-- C11. Soft page cap. Take an iteration that fetches its page successfully
(the URL parses, is new and allowed, status 200, non-empty text);
`crawled_now` is the count before plus one. If `maxPages > 0` and
`crawled_now >= maxPages`, the iteration pushes no URL and leaves
`enqueuedPages_` as it was, whatever the links of the page, and the URLs that
were queued behind the dequeued one stay queued. If `maxPages == 0` or
`crawled_now < maxPages`, the URLs pushed behind them are exactly the extracted
links that were absent from `enqueuedPages_`, each of them once, and they are
inserted into `enqueuedPages_`. -/
theorem soft_page_cap (c : Config) (resp : FetchResult) (s : State) (front : Str)
    (queue : List Str) (parts : UrlParts)
    (hq : s.url_queue_ = front :: queue)
    (hparse : parse_url (normalize_url front) = some parts)
    (hvis : normalize_url front ∉ s.visitedPages_)
    (hrobots : robots_allowed c parts.path = true)
    (hstatus : resp.status = 200) (hbody : resp.body ≠ []) :
    ∃ s2, crawl_iter c resp s = some s2
      ∧ s2.pages_crawled_ = s.pages_crawled_ + 1
      ∧ (0 < c.maxPages_ ∧ c.maxPages_ ≤ s.pages_crawled_ + 1 →
          s2.url_queue_ = queue ∧ s2.pushed_ = s.pushed_
          ∧ s2.enqueuedPages_ = s.enqueuedPages_)
      ∧ (c.maxPages_ = 0 ∨ s.pages_crawled_ + 1 < c.maxPages_ →
          ∃ new : List Str, s2.url_queue_ = queue ++ new ∧ s2.pushed_ = s.pushed_ ++ new
            ∧ new.Nodup
            ∧ (∀ u, u ∈ new ↔
                u ∈ extract_links c resp.body (normalize_url front) ∧ u ∉ s.enqueuedPages_)
            ∧ (∀ u, u ∈ s2.enqueuedPages_ ↔ u ∈ s.enqueuedPages_ ∨ u ∈ new)) := by
  refine ⟨_, crawl_iter_success c resp s front queue parts hq hparse hvis hrobots hstatus hbody,
    ?_, ?_, ?_⟩
  · unfold process_page
    simp only [close_if_limit_eq]
    split
    · rw [(enqueue_links_frame _ _).2.2.2.2.2.2.2, (enqueue_downloads_frame _ _ _ _).2.2.2.2.2]
    · rw [(enqueue_downloads_frame _ _ _ _).2.2.2.2.2]
  · rintro ⟨hpos, hge⟩
    have hcond : (c.maxPages_ = 0 ∨ s.pages_crawled_ + 1 < c.maxPages_) → False := by
      rintro (h | h) <;> omega
    unfold process_page
    simp only [close_if_limit_eq, Bool.or_eq_true, decide_eq_true_eq]
    rw [if_neg hcond]
    exact ⟨(enqueue_downloads_frame _ _ _ _).2.2.1, (enqueue_downloads_frame_pushed _ _ _ _).2,
      (enqueue_downloads_frame_pushed _ _ _ _).1⟩
  · intro hcond
    unfold process_page
    simp only [close_if_limit_eq, Bool.or_eq_true, decide_eq_true_eq]
    rw [if_pos hcond]
    obtain ⟨new, hp, hqu, hd, hm, he⟩ := enqueue_links_exact
      (extract_links c resp.body (normalize_url front))
      (enqueue_downloads (normalize_url front) (get_category_from_url (normalize_url front))
        (page_pdfs c parts resp.body)
        { s with url_queue_ := queue,
                 visitedPages_ := normalize_url front :: s.visitedPages_,
                 fetched_ := s.fetched_ ++ [normalize_url front],
                 pages_crawled_ := s.pages_crawled_ + 1 })
    rw [(enqueue_downloads_frame_pushed _ _ _ _).2] at hp
    rw [(enqueue_downloads_frame _ _ _ _).2.2.1] at hqu
    rw [(enqueue_downloads_frame_pushed _ _ _ _).1] at hm he
    exact ⟨new, hqu, hp, hd, hm, he⟩

/-- The witness of C11: the seed page of https://a.com links to /b (twice) and
/c. With `maxPages = 1` the first fetched page enqueues nothing; without a cap
it pushes the two links, each once. -/
theorem soft_page_cap_witness :
    (∃ s2, crawl_iter site_a_cap1 two_links_page (seed site_a_cap1) = some s2
        ∧ s2.url_queue_ = [] ∧ s2.pushed_ = ["https://a.com".toList]
        ∧ s2.enqueuedPages_ = [])
      ∧ (∃ s2, crawl_iter site_a two_links_page (seed site_a) = some s2
          ∧ ∃ new : List Str, s2.url_queue_ = [] ++ new
            ∧ new.Nodup
            ∧ (∀ u, u ∈ new ↔
                u ∈ ["https://a.com/b".toList, "https://a.com/c".toList,
                      "https://a.com/b".toList] ∧ u ∉ ([] : List Str))) := by
  constructor
  · obtain ⟨s2, h, _, hcap, _⟩ := soft_page_cap site_a_cap1 two_links_page (seed site_a_cap1)
      "https://a.com".toList [] ⟨"https".toList, "a.com".toList, "/".toList⟩
      (by rfl) (by rfl) (by decide) (by rfl) (by rfl) (by decide)
    exact ⟨s2, h, hcap ⟨by decide, by decide⟩⟩
  · obtain ⟨s2, h, _, _, hopen⟩ := soft_page_cap site_a two_links_page (seed site_a)
      "https://a.com".toList [] ⟨"https".toList, "a.com".toList, "/".toList⟩
      (by rfl) (by rfl) (by decide) (by rfl) (by rfl) (by decide)
    obtain ⟨new, hqu, _, hd, hm, _⟩ := hopen (Or.inl rfl)
    exact ⟨s2, h, new, hqu, hd, hm⟩

/-! ## The parse loop of `fetch_robots` against the specification -/

theorem char_toLower_star (ch : Char) (h : ch.toLower = '*') : ch = '*' := by
  by_cases hc : ch.toNat ≥ 65 ∧ ch.toNat ≤ 90
  · exfalso
    have hcn : ch = Char.ofNat ch.toNat := (Char.ofNat_toNat ch).symm
    generalize ch.toNat = n at hc hcn
    subst hcn
    obtain ⟨h1, h2⟩ := hc
    interval_cases n <;> exact absurd h (by decide)
  · simpa [Char.toLower, hc] using h

theorem to_lower_eq_star (v : Str) : to_lower v = ['*'] ↔ v = ['*'] := by
  constructor
  · intro h
    cases v with
    | nil => simp [to_lower] at h
    | cons ch rest =>
      cases rest with
      | nil =>
        have : ch.toLower = '*' := by simpa [to_lower] using h
        rw [char_toLower_star ch this]
      | cons _ _ => simp [to_lower] at h
  · intro h
    rw [h]
    rfl

theorem comment_strip_eq (line : Str) :
    (match find_char '#' line with
      | some hash => line.take hash
      | none => line) = line.takeWhile (fun ch => ch != '#') := by
  induction line with
  | nil => rfl
  | cons x xs ih =>
    by_cases hx : x = '#'
    · subst hx
      simp [find_char]
    · have hx2 : (x != '#') = true := by simpa using hx
      rw [List.takeWhile_cons, hx2]
      simp only [find_char, hx, if_false, if_true]
      cases hf : find_char '#' xs with
      | none =>
        rw [hf] at ih
        simp only [Option.map_none']
        rw [← ih]
      | some n =>
        rw [hf] at ih
        simp only [Option.map_some', List.take_succ_cons]
        rw [← ih]

/-- Two keys with different first characters are not both at the start of a
string. -/
theorem keys_exclusive (k1 k2 x : Str) (a b : Char) (r1 r2 : Str) (h1 : k1 = a :: r1)
    (h2 : k2 = b :: r2) (hab : a ≠ b) (hp : k1.isPrefixOf x = true) :
    k2.isPrefixOf x = false := by
  subst h1 h2
  cases x with
  | nil => rfl
  | cons y ys =>
    simp only [List.isPrefixOf, Bool.and_eq_true, beq_iff_eq] at hp
    simp only [List.isPrefixOf, Bool.and_eq_false_imp, beq_iff_eq]
    intro hb
    exact absurd (hp.1.trans hb.symm) hab

/-- The body of the parse loop in terms of the cleaned line. -/
theorem robots_line_eq (acc : RobotsAcc) (line : Str) :
    robots_line acc line =
      if (spec_clean line).isEmpty then acc
      else if spec_has_key "user-agent:".toList (spec_clean line) then
        { acc with
          in_all := decide (to_lower (spec_value "user-agent:".toList (spec_clean line)) = ['*']) }
      else if acc.in_all && (spec_has_key "allow:".toList (spec_clean line)
          || spec_has_key "disallow:".toList (spec_clean line)) then
        if spec_has_key "allow:".toList (spec_clean line) then
          { acc with robotsAllow_ :=
              acc.robotsAllow_ ++ [spec_value "allow:".toList (spec_clean line)] }
        else
          { acc with robotsDisallow_ :=
              acc.robotsDisallow_ ++ [spec_value "disallow:".toList (spec_clean line)] }
      else acc := by
  unfold robots_line
  simp only [comment_strip_eq]
  show (if (spec_clean line).isEmpty then acc
      else if spec_has_key "user-agent:".toList (spec_clean line) then
        { acc with
          in_all := decide (to_lower (spec_value "user-agent:".toList (spec_clean line)) = ['*']) }
      else if acc.in_all && (spec_has_key "allow:".toList (spec_clean line)
          || spec_has_key "disallow:".toList (spec_clean line)) then
        if spec_has_key "allow:".toList (spec_clean line) then
          { acc with robotsAllow_ := acc.robotsAllow_
              ++ [trim ((spec_clean line).drop
                    (if spec_has_key "allow:".toList (spec_clean line) then 6 else 9))] }
        else
          { acc with robotsDisallow_ := acc.robotsDisallow_
              ++ [trim ((spec_clean line).drop
                    (if spec_has_key "allow:".toList (spec_clean line) then 6 else 9))] }
      else acc) = _
  by_cases ha : spec_has_key "allow:".toList (spec_clean line) = true
  · simp only [ha, if_true]
    rfl
  · simp only [ha, if_false]
    rfl

theorem spec_agent_snoc (before : List Str) (l : Str) :
    spec_agent (before ++ [l]) =
      if spec_has_key "user-agent:".toList l then some (spec_value "user-agent:".toList l)
      else spec_agent before := by
  unfold spec_agent
  generalize "user-agent:".toList = k
  rw [List.filter_append]
  by_cases h : spec_has_key k l = true
  · rw [if_pos h, List.filter_cons_of_pos h, List.filter_nil, List.getLast?_append]
    rfl
  · rw [if_neg h, List.filter_cons_of_neg h, List.filter_nil, List.append_nil]

/-- One round of the parse loop against the specification: `in_all` says
whether the most recent "user-agent:" line so far has the value "*", and the
rule vectors grow by what the line contributes. -/
theorem robots_line_step (acc : RobotsAcc) (line : Str) (before : List Str)
    (hin : acc.in_all = decide (spec_agent before = some ['*'])) :
    (robots_line acc line).in_all
        = decide (spec_agent (before ++ [spec_clean line]) = some ['*'])
      ∧ (robots_line acc line).robotsAllow_ = acc.robotsAllow_
          ++ (spec_rule_of "allow:".toList (before, spec_clean line)).toList
      ∧ (robots_line acc line).robotsDisallow_ = acc.robotsDisallow_
          ++ (spec_rule_of "disallow:".toList (before, spec_clean line)).toList := by
  rw [robots_line_eq, spec_agent_snoc]
  unfold spec_rule_of
  generalize spec_clean line = l
  have hstar : ("*".toList : Str) = ['*'] := rfl
  have hdec : decide (to_lower (spec_value "user-agent:".toList l) = ['*'])
      = decide (spec_value "user-agent:".toList l = ['*']) :=
    decide_eq_decide.2 (to_lower_eq_star _)
  rw [hdec, hstar]
  have hua_al : spec_has_key "user-agent:".toList l = true →
      spec_has_key "allow:".toList l = false :=
    keys_exclusive _ _ _ 'u' 'a' "ser-agent:".toList "llow:".toList rfl rfl (by decide)
  have hua_dis : spec_has_key "user-agent:".toList l = true →
      spec_has_key "disallow:".toList l = false :=
    keys_exclusive _ _ _ 'u' 'd' "ser-agent:".toList "isallow:".toList rfl rfl (by decide)
  have hal_dis : spec_has_key "allow:".toList l = true →
      spec_has_key "disallow:".toList l = false :=
    keys_exclusive _ _ _ 'a' 'd' "llow:".toList "isallow:".toList rfl rfl (by decide)
  have hempty : l.isEmpty = true →
      spec_has_key "user-agent:".toList l = false ∧ spec_has_key "allow:".toList l = false
        ∧ spec_has_key "disallow:".toList l = false := by
    intro he
    have hl : l = [] := List.isEmpty_iff.1 he
    subst hl
    exact ⟨rfl, rfl, rfl⟩
  generalize spec_has_key "user-agent:".toList l = bU at *
  generalize spec_has_key "allow:".toList l = bA at *
  generalize spec_has_key "disallow:".toList l = bD at *
  generalize spec_value "user-agent:".toList l = vU at *
  generalize spec_value "allow:".toList l = vA at *
  generalize spec_value "disallow:".toList l = vD at *
  generalize l.isEmpty = e at *
  generalize spec_agent before = ag at *
  obtain ⟨ia, al, dl⟩ := acc
  simp only at hin
  subst hin
  by_cases hag : ag = some ['*'] <;>
    cases e <;> cases bU <;> cases bA <;> cases bD <;> simp_all

/-- The parse loop over the lines read: the rule vectors grow by the rules the
specification assigns to these lines, given the lines before them. -/
theorem robots_fold_spec (lines : List Str) (before : List Str) (acc : RobotsAcc)
    (hin : acc.in_all = decide (spec_agent before = some ['*'])) :
    (lines.foldl robots_line acc).robotsAllow_ = acc.robotsAllow_
        ++ (with_preceding before (lines.map spec_clean)).filterMap
            (spec_rule_of "allow:".toList)
      ∧ (lines.foldl robots_line acc).robotsDisallow_ = acc.robotsDisallow_
          ++ (with_preceding before (lines.map spec_clean)).filterMap
              (spec_rule_of "disallow:".toList) := by
  induction lines generalizing before acc with
  | nil => simp [with_preceding]
  | cons line rest ih =>
    obtain ⟨h1, h2, h3⟩ := robots_line_step acc line before hin
    obtain ⟨i1, i2⟩ := ih (before ++ [spec_clean line]) (robots_line acc line) h1
    rw [List.foldl_cons, List.map_cons, with_preceding, i1, i2, h2, h3, List.filterMap_cons,
      List.filterMap_cons]
    generalize spec_rule_of "allow:".toList (before, spec_clean line) = ra
    generalize spec_rule_of "disallow:".toList (before, spec_clean line) = rd
    constructor
    · cases ra <;> simp
    · cases rd <;> simp

/-- C12. Robots parsing is scoped to the "User-agent: *" block. For every
robots.txt body served with status 200, `fetch_robots` appends to the Disallow
list exactly, in order, the trimmed values of the lines that, once their
comment is removed and they are trimmed, start case-insensitively with
"disallow:" and whose most recent preceding "user-agent:" line has the value
"*"; likewise for the Allow list and "allow:". The lists are empty before the
call, so these are the lists built. On the body of the example the Disallow
list is ["/a"] and the Allow list is empty. -/
theorem robots_parsing_scoped :
    (∀ (c : Config) (body : Str),
        (fetch_robots c ⟨200, body⟩).robotsDisallow_
            = c.robotsDisallow_ ++ spec_rules "disallow:".toList body
        ∧ (fetch_robots c ⟨200, body⟩).robotsAllow_
            = c.robotsAllow_ ++ spec_rules "allow:".toList body)
      ∧ (∀ (c : Config) (body : Str),
          (fetch_robots { c with robotsAllow_ := [], robotsDisallow_ := [] }
              ⟨200, body⟩).robotsDisallow_ = spec_rules "disallow:".toList body
          ∧ (fetch_robots { c with robotsAllow_ := [], robotsDisallow_ := [] }
              ⟨200, body⟩).robotsAllow_ = spec_rules "allow:".toList body)
      ∧ construct "https://a.com".toList "out".toList 0 [".pdf".toList] .eps = some site_a
      ∧ (fetch_robots site_a ⟨200, robots_body⟩).robotsDisallow_ = ["/a".toList]
      ∧ (fetch_robots site_a ⟨200, robots_body⟩).robotsAllow_ = []
      ∧ spec_rules "disallow:".toList robots_body = ["/a".toList]
      ∧ spec_rules "allow:".toList robots_body = [] := by
  have main : ∀ (c : Config) (body : Str),
      (fetch_robots c ⟨200, body⟩).robotsDisallow_
          = c.robotsDisallow_ ++ spec_rules "disallow:".toList body
      ∧ (fetch_robots c ⟨200, body⟩).robotsAllow_
          = c.robotsAllow_ ++ spec_rules "allow:".toList body := by
    intro c body
    cases body with
    | nil => exact ⟨by simp [fetch_robots, spec_rules, getlines, getlines_from, with_preceding],
        by simp [fetch_robots, spec_rules, getlines, getlines_from, with_preceding]⟩
    | cons ch rest =>
      have h := robots_fold_spec (getlines (ch :: rest)) []
        ⟨false, c.robotsAllow_, c.robotsDisallow_⟩ rfl
      exact ⟨h.2, h.1⟩
  refine ⟨main, ?_, by rfl, by rfl, by rfl, by rfl, by rfl⟩
  intro c body
  have h := main { c with robotsAllow_ := [], robotsDisallow_ := [] } body
  exact ⟨by rw [h.1]; rfl, by rw [h.2]; rfl⟩

/-! ## The manifest when the category directory can or cannot be created -/

theorem download_iter_throws (c : Config) (env : DownloadEnv) (s : State) (t : DownloadTask)
    (queue : List DownloadTask) (hq : s.download_queue_ = t :: queue)
    (hdir : env.dir_ok = false) :
    download_iter c env s = some (.error
      { s with download_queue_ := queue, pending_downloads_ := s.pending_downloads_ - 1 }) := by
  unfold download_iter
  rw [hq]
  simp [hdir]

theorem Re.size_pos (re : Re) : 0 < re.size := by
  cases re <;> simp [Re.size]

/-- The conditions of `target_found` on the extensions and on the end of the
value are needed. (a) With the extensions `.pdf"x` and `.pdf`, the value found
for `href="https://b.com/a.pdf"x"` runs over the quote that closes the
attribute. (b) With the extension `.pdf/`, the value https://b.com/a.pdf/ loses
its slash in `normalize_url` and `is_pdf_url` rejects what is left. (c) With
the empty extension alone the pattern asks for ".pdf" while `is_pdf_url`
accepts every URL. -/
theorem target_conditions_needed :
    page_pdfs { site_a with targetExtensions_ := [".pdf\"x".toList, ".pdf".toList] }
        ⟨"https".toList, "a.com".toList, "/".toList⟩
        "<a href=\"https://b.com/a.pdf\"x\">".toList = ["https://b.com/a.pdf\"x".toList]
      ∧ page_pdfs { site_a with targetExtensions_ := [".pdf/".toList] }
          ⟨"https".toList, "a.com".toList, "/".toList⟩
          "<a href=\"https://b.com/a.pdf/\">".toList = []
      ∧ is_pdf_url { site_a with targetExtensions_ := [[]] } "https://b.com/x".toList = true
      ∧ page_pdfs { site_a with targetExtensions_ := [[]] }
          ⟨"https".toList, "a.com".toList, "/".toList⟩
          "<a href=\"https://b.com/x\">".toList = [] :=
  ⟨by rfl, by rfl, by rfl, by rfl⟩

end Crawler
